import Mathlib

/-!
# Verification of the `nanoCAT.bde.dissociate_xyn_v2` dissociation engine

This file gives a shallow embedding, in Lean 4, of the geometric/combinatorial
core of `src/nanoCAT/bde/dissociate_xyn_v2.py` (the `MolDissociater` class and
its helper functions), together with theorems settling the frozen claims about
that code.

Modelling conventions, shared by all definitions below:

* Atom coordinates are triples over a linear ordered commutative ring `α`
  (concrete evaluations use `ℤ`; `ℚ` is an instance as well).  Euclidean
  distances are represented throughout by their *squares* (`distSq`); every
  comparison the Python code performs on distances (`<`, `<=`, `argsort`,
  norms of distance vectors) is mirrored on squared values.  Since
  `Real.sqrt` is strictly monotone on nonnegatives, all order comparisons,
  sorts and selections coincide with the floating-point-free idealisation of
  the source.  In particular the Euclidean norm of a vector of distances
  `sqrt (d1^2 + ... + dk^2)` is represented by `d1^2 + ... + dk^2`, i.e. the
  sum of the squared distances (`normSqOf`).
* `numpy` arrays of indices become `List ℕ` (or `List ℤ` where the Python
  values may be negative); matrices become row lists or binary functions.
* `np.argsort` is modelled as the permutation of `List.range` sorted by
  value with ties broken by position (`argsort`).  numpy's default sort is
  unspecified on ties; every general theorem proved below about `argsort`
  output is tie-independent (it only uses that the result is *a* sorted
  permutation), and every concrete evaluation uses tie-free data.
* Python exceptions become an explicit `PyErr` value through `Except`.
-/

set_option maxRecDepth 10000
set_option linter.unusedSectionVars false
set_option linter.unusedVariables false

variable {α : Type} [LinearOrderedCommRing α]

/-- A 3-D coordinate, as one row of `MolDissociater._coords = mol.as_array()`. -/
abbrev V3 (α : Type) : Type := α × α × α

/-- Squared Euclidean distance between two coordinates.  This is the exact
square of the `scipy.spatial.distance.cdist` entry for the two rows. -/
def distSq (p q : V3 α) : α :=
  (p.1 - q.1) * (p.1 - q.1) + (p.2.1 - q.2.1) * (p.2.1 - q.2.1) +
    (p.2.2 - q.2.2) * (p.2.2 - q.2.2)

/-- Coordinate lookup for a concrete atom array: `xyzOf ps i` is `ps[i]`.
Out-of-range reads (which the claims' hypotheses exclude) default to the
origin. -/
def xyzOf (ps : List (V3 α)) : ℕ → V3 α := fun i => ps.getD i (0, 0, 0)

/-- The comparison key used to model `np.argsort` on a row `xs`: position `a`
precedes position `b` when its value is smaller, with ties broken by
position. -/
def ArgLE (xs : List α) (a b : ℕ) : Prop :=
  xs.getD a 0 < xs.getD b 0 ∨ (xs.getD a 0 = xs.getD b 0 ∧ a ≤ b)

instance (xs : List α) : DecidableRel (ArgLE xs) := fun a b => by
  unfold ArgLE; infer_instance

instance (xs : List α) : IsTotal ℕ (ArgLE xs) where
  total a b := by
    unfold ArgLE
    rcases lt_trichotomy (xs.getD a 0) (xs.getD b 0) with h | h | h
    · exact Or.inl (Or.inl h)
    · rcases Nat.le_total a b with hab | hab
      · exact Or.inl (Or.inr ⟨h, hab⟩)
      · exact Or.inr (Or.inr ⟨h.symm, hab⟩)
    · exact Or.inr (Or.inl h)

instance (xs : List α) : IsTrans ℕ (ArgLE xs) where
  trans a b c hab hbc := by
    unfold ArgLE at *
    rcases hab with h1 | ⟨e1, l1⟩
    · rcases hbc with h2 | ⟨e2, _⟩
      · exact Or.inl (h1.trans h2)
      · exact Or.inl (e2 ▸ h1)
    · rcases hbc with h2 | ⟨e2, l2⟩
      · exact Or.inl (e1 ▸ h2)
      · exact Or.inr ⟨e1.trans e2, l1.trans l2⟩

/-- Model of `np.argsort(xs)`: the positions `0, …, xs.length - 1` arranged so
that the corresponding values of `xs` are ascending (ties by position). -/
def argsort (xs : List α) : List ℕ :=
  List.insertionSort (ArgLE xs) (List.range xs.length)

/-- Model of `itertools.combinations(xs, n)`: all size-`n` subsequences of
`xs`, in itertools' enumeration order (lexicographic by position). -/
def combinationsList {α : Type} : ℕ → List α → List (List α)
  | 0, _ => [[]]
  | _ + 1, [] => []
  | n + 1, x :: xs =>
      (combinationsList n xs).map (fun c => x :: c) ++ combinationsList (n + 1) xs

/-- A Python exception, as surfaced by the modelled functions. -/
inductive PyErr : Type where
  /-- `AttributeError` (e.g. a nonexistent `numpy` attribute). -/
  | attributeError (msg : String)
  /-- `ValueError` (bad unpacking, shape mismatches, validation failures). -/
  | valueError (msg : String)
  /-- `TypeError` (an operation applied to a value of the wrong type). -/
  | typeError (msg : String)
  /-- `IndexError` (out-of-range numpy fancy indexing). -/
  | indexError (msg : String)
  /-- `KeyError` (missing dictionary key). -/
  | keyError
  deriving Repr, DecidableEq

/-- The squared Euclidean norm of the sub-vector of `ds` selected by the
positions in `combo`: models `np.linalg.norm(dist_smallest[:, combine], axis=2)`
squared, where `ds` holds squared distances. -/
def normSqOf (ds : List α) (combo : List ℕ) : α :=
  (combo.map (fun p => ds.getD p 0)).sum

/-- The row of squared core-to-anchor distances for core atom `a`:
models one row of `cdist(xyz[i], xyz[j])` (squared), with `j` the 0-based
anchor positions. -/
def distRow (xyz : ℕ → V3 α) (j : List ℕ) (a : ℕ) : List α :=
  j.map (fun b => distSq (xyz a) (xyz b))

/-- Line 384, one row: `idx_small = np.argsort(dist, axis=1)[:, :1+n_pairs]` —
the positions of the `1 + n_pairs` anchors nearest to core atom `a`. -/
def idxSmall (xyz : ℕ → V3 α) (j : List ℕ) (a : ℕ) (n_pairs : ℕ) : List ℕ :=
  (argsort (distRow xyz j a)).take (1 + n_pairs)

/-- Line 385, one row: `dist_smallest = np.take_along_axis(dist, idx_small, axis=1)` —
the squared distances of the pooled anchors, ascending. -/
def distSmallest (xyz : ℕ → V3 α) (j : List ℕ) (a : ℕ) (n_pairs : ℕ) : List α :=
  (idxSmall xyz j a n_pairs).map (fun p => (distRow xyz j a).getD p 0)

/-- Line 392, one row: `norm = np.linalg.norm(dist_smallest[:, combine], axis=2)`
(squared) — the score of each enumerated subset of the pool. -/
def pairNorms (xyz : ℕ → V3 α) (j : List ℕ) (a : ℕ) (n n_pairs : ℕ) : List α :=
  (combinationsList n (List.range (1 + n_pairs))).map
    (fun c => normSqOf (distSmallest xyz j a n_pairs) c)

/-- `MolDissociater.get_pairs_closest` (lines 343-399).

Arguments: `xyz` the coordinate array, `core` the stored (0-based)
`core_idx`, `lig_idx` the supplied 1-based ligand anchor indices,
`ligand_count = self.ligand_count`, and `n_pairs`.

Faithful points, in source order:
* `n_pairs <= 0` raises `ValueError` (line 366-367);
* `j = as_array(lig_idx, dtype=int) - 1` (line 372);
* `n_pairs == 1` branch (lines 378-381): each record is the 0-based core
  index `hstack`ed with the first two entries of the row's `argsort`, i.e.
  with *positions into the anchor list*, not atom indices;
* `n_pairs > 1` branch (lines 383-399): the per-row candidate pool is the
  `1 + n_pairs` nearest anchors (`[:, :1+n_pairs]`), the enumerated subsets
  are `itertools.combinations(range(1 + n_pairs), n)`, subsets are ranked by
  the norm of their distances and the first `n_pairs` are kept; one record
  per kept subset, the core column repeated `n_pairs` times per core atom.
  When the fancy index `dist_smallest[:, combine]` references a column
  beyond the shrunken matrix (fewer anchors than `1 + n_pairs`) numpy raises
  `IndexError`; when fewer than `n_pairs` subsets exist the final
  `np.hstack` raises `ValueError` because the core column is longer than the
  ligand block, and an empty core likewise makes the
  `lig_idx.shape = -1, lig_idx.shape[-1]` reshape of an empty array fail. -/
def get_pairs_closest (xyz : ℕ → V3 α) (core : List ℕ) (lig_idx : List ℕ)
    (ligand_count : ℕ) (n_pairs : ℕ) : Except PyErr (List (List ℕ)) :=
  if n_pairs = 0 then
    .error (.valueError "The n_pairs parameter should be larger than 0")
  else
    let j := lig_idx.map (· - 1)
    if n_pairs = 1 then
      .ok (core.map (fun a => a :: (argsort (distRow xyz j a)).take 2))
    else
      let n := ligand_count
      let combine := combinationsList n (List.range (1 + n_pairs))
      if combine.any (fun c => c.any (fun p => min (1 + n_pairs) j.length ≤ p)) then
        .error (.indexError "index out of bounds for axis 1")
      else if combine.length < n_pairs ∧ core ≠ [] then
        .error (.valueError "all the input array dimensions must match")
      else if core = [] then
        .error (.valueError "cannot reshape array of size 0")
      else
        .ok (core.flatMap (fun a =>
          let idx_accept := ((argsort (pairNorms xyz j a n n_pairs)).take n_pairs).map
            (fun q => combine.getD q [])
          idx_accept.map (fun c => a :: c.map (fun p => (idxSmall xyz j a n_pairs).getD p 0))))

/-- Modelled from the claim C3 wording (reference definition for the
refinement comparison, *not* translated from the source): for each core atom
take the `n_pairs + n` nearest anchors as candidate pool, enumerate all
`C(n_pairs + n, n)` size-`n` subsets, rank them by the norm of their member
distances (ascending, ties by enumeration order) and keep the first
`n_pairs`, emitting one record per kept subset. -/
def claim_pairs_closest (xyz : ℕ → V3 α) (core : List ℕ) (lig_idx : List ℕ)
    (ligand_count : ℕ) (n_pairs : ℕ) : List (List ℕ) :=
  let j := lig_idx.map (· - 1)
  let n := ligand_count
  let combine := combinationsList n (List.range (n_pairs + n))
  core.flatMap (fun a =>
    let row := distRow xyz j a
    let pool := (argsort row).take (n_pairs + n)
    let ds := pool.map (fun p => row.getD p 0)
    let norm := combine.map (fun c => normSqOf ds c)
    let idx_accept := ((argsort norm).take n_pairs).map (fun q => combine.getD q [])
    idx_accept.map (fun c => a :: c.map (fun p => pool.getD p 0)))

/-- The masked core-to-anchor squared-distance matrix of
`MolDissociater.get_pairs_distance` (lines 429-430): entry `(r, c)` is the
squared distance from core atom `core[r]` to anchor `j[c]`, except that
`np.fill_diagonal(dist, max_dist)` overwrites the *positionally* diagonal
entries `r = c` with exactly the threshold — although the matrix is
core-by-anchor and generally not square, so position `(t, t)` need not
relate a core atom to itself. -/
def maskedDistD (xyz : ℕ → V3 α) (core j : List ℕ) (maxDistSq : α) (r c : ℕ) : α :=
  if r = c then maxDistSq else distSq (xyz (core.getD r 0)) (xyz (j.getD c 0))

/-- Model of `idx = np.where(dist < max_dist)` zipped back into pairs
(`zip(*idx)`, lines 433-435): the (row, column) index pairs whose masked
distance is strictly below the threshold, in row-major order (the order
`np.where` produces). -/
def npWhereLT (d : ℕ → ℕ → α) (m L : ℕ) (t : α) : List (ℕ × ℕ) :=
  (List.range m).flatMap (fun r =>
    (List.range L).filterMap (fun c => if d r c < t then some (r, c) else none))

/-- Model of `itertools.groupby(zip(*idx), key=lambda kv: kv[0])` materialised
by the dict comprehension of lines 434-436: consecutive runs of pairs sharing
a first component, keyed by that component.  Note that the Python code stores
`list(v)` — lists of *(row, column) pairs*, not of column indices.  (The
`np.where` input has ascending rows, so runs are exactly the per-row groups
and the dictionary keys are unique.) -/
def groupByFst : List (ℕ × ℕ) → List (ℕ × List (ℕ × ℕ))
  | [] => []
  | p :: ps =>
    match groupByFst ps with
    | [] => [(p.1, [p])]
    | (k, g) :: rest =>
      if p.1 = k then (k, p :: g) :: rest else (p.1, [p]) :: (k, g) :: rest

/-- `MolDissociater.get_pairs_distance` (lines 401-444).

Arguments as in `get_pairs_closest`; `maxDistSq` is the squared `max_dist`
threshold (default `5.0` in the source).  For each dictionary entry
`(k, v)` with `len(v) >= n` (`n = self.ligand_count`), one record
`(k,) + n_tup` is emitted per `n_tup in itertools.combinations(v, n)` —
so a record couples the core *row* index `k` with `n` chosen `(row, column)`
pairs, not with ligand indices.  The final `np.array(cor_lig_pairs)` of
line 444 merely packages this list (on the ragged element tuples it yields
an object array under the numpy releases contemporary to this code and
raises `ValueError` under numpy >= 1.24); the list content is what is
modelled. -/
def get_pairs_distance (xyz : ℕ → V3 α) (core lig_idx : List ℕ)
    (ligand_count : ℕ) (maxDistSq : α) : List (ℕ × List (ℕ × ℕ)) :=
  let j := lig_idx.map (· - 1)
  let pairs := npWhereLT (maskedDistD xyz core j maxDistSq) core.length j.length maxDistSq
  let pair_mapping := groupByFst pairs
  pair_mapping.flatMap (fun kv =>
    if ligand_count ≤ kv.2.length then
      (combinationsList ligand_count kv.2).map (fun c => (kv.1, c))
    else [])

/-- The slice of a PLAMS `Atom` that the engine touches: its coordinates and
the property bag entries `properties.pdb_info.ResidueNumber`,
`properties.topology` and `properties.anchor`. -/
structure Atom (α : Type) where
  pos : V3 α
  resNum : ℤ
  topology : Option String := none
  anchor : Bool := false
  deriving Repr, DecidableEq

/-- A PLAMS `Molecule`: an ordered list of atoms.  PLAMS indexing `mol[i]`
is 1-based; position `i - 1` of `atoms`. -/
structure Molecule (α : Type) where
  atoms : List (Atom α)
  deriving Repr, DecidableEq

/-- A default atom, used only as the out-of-range fallback of `List.getD`. -/
def dummyAtom : Atom α := { pos := (0, 0, 0), resNum := 0 }

/-- The core×core squared-distance matrix of `assign_topology` after
`np.fill_diagonal(dist, max_dist)` (lines 303-304): the (square) matrix of
pairwise core distances with the diagonal overwritten to exactly the
threshold. -/
def maskedCoreDist (xyz : ℕ → V3 α) (core : List ℕ) (t : α) (r c : ℕ) : α :=
  if r = c then t else distSq (xyz (core.getD r 0)) (xyz (core.getD c 0))

/-- `valid_core, _ = np.where(dist <= max_dist)` (line 307): the row index of
every matrix entry at or below the threshold, in row-major order. -/
def validCore (d : ℕ → ℕ → α) (m : ℕ) (t : α) : List ℕ :=
  (List.range m).flatMap (fun r =>
    (List.range m).filterMap (fun c => if d r c ≤ t then some r else none))

/-- `np.bincount(xs, minlength)` (line 308): occurrence counts of
`0, …, max(minlength, max xs + 1) - 1` in `xs`. -/
def bincount (minlength : ℕ) (xs : List ℕ) : List ℕ :=
  (List.range (max minlength (xs.foldr (fun a b => max (a + 1) b) 0))).map
    (fun v => xs.count v)

/-- The label for one neighbour count: `topology.get(i, f"{i}_neighbours")`
(line 339). -/
def topologyLabel (topology : List (ℤ × String)) (i : ℤ) : String :=
  match topology.lookup i with
  | some s => s
  | none => toString i ++ "_neighbours"

/-- `MolDissociater._get_topology` (lines 316-339): translate the neighbour
counts into labels through the `topology` mapping (modelled as an
association list), with the generic `"<count>_neighbours"` fallback. -/
def _get_topology (topology : List (ℤ × String)) (neighbour_count : List ℤ) :
    List String :=
  neighbour_count.map (fun i => topologyLabel topology i)

/-- `mol[1 + j].properties.topology = top` (lines 313-314): replace the
topology property of the atom at 0-based position `j` (PLAMS index `1 + j`),
leaving every other atom and every other property unchanged. -/
def setTopologyAtoms : List (Atom α) → ℕ → String → List (Atom α)
  | [], _, _ => []
  | a :: as, 0, top => { a with topology := some top } :: as
  | a :: as, j + 1, top => a :: setTopologyAtoms as j top

/-- `MolDissociater.assign_topology` (lines 281-314).

* builds the core×core distance matrix and overwrites its diagonal with
  `max_dist` (so every row matches its own diagonal entry under `<=`);
* `neighbour_count = np.bincount(valid_core, minlength=len(i)) - 1`
  (lines 308-309, compensating for the diagonal inclusion);
* maps counts to labels through `_get_topology`;
* writes label `r` into `mol[1 + core[r]].properties.topology`
  (`zip(self.core_idx, topology)`, lines 312-314). -/
def assign_topology (mol : Molecule α) (core : List ℕ) (t : α)
    (topology : List (ℤ × String)) : Molecule α :=
  let xyz := xyzOf (mol.atoms.map (fun at2 => at2.pos))
  let valid_core := validCore (maskedCoreDist xyz core t) core.length t
  let neighbour_count := (bincount core.length valid_core).map (fun (k : ℕ) => (k : ℤ) - 1)
  let topo := _get_topology topology neighbour_count
  ⟨(core.zip topo).foldl (fun atoms jt => setTopologyAtoms atoms jt.1 jt.2) mol.atoms⟩

/-- `MolDissociater.remove_bulk` (lines 228-277).  Line 253 computes the
core×core distance matrix; line 254 then invokes `np.filldiagonal`, an
attribute that does not exist in numpy (the correct spelling,
`np.fill_diagonal`, is the one used at line 304), so every call raises
`AttributeError` before any filtering happens.  Were that typo fixed, the
call would still fail at line 276, where `norm_accept, _ =
np.where(vec_norm > max_vec_len)` unpacks the 1-tuple that `np.where`
returns on a 1-D array into two names (`ValueError`); furthermore a
zero-neighbour core atom would make `np.average` of an empty slice return
NaN, whose `>` comparison is False — discarding, not retaining, the atom —
and the final `self.core_idx = i[norm_accept]` re-enters the property
setter of lines 179-183, which subtracts 1 once more from the already
0-based surviving indices. -/
def remove_bulk (xyz : ℕ → V3 α) (core : List ℕ) (maxDistSq maxVecLenSq : α) :
    Except PyErr (List ℕ) :=
  let _dist := core.map (fun a => distRow xyz core a)
  .error (.attributeError "module numpy has no attribute filldiagonal")

/-- The value handed to the `core_idx` coercion: a single integer, a list,
or a one-shot iterator (content-wise both sequence forms carry their
elements; `np.fromiter` consumes the iterator). -/
inductive CoreIdxInput : Type where
  | scalar (n : ℤ)
  | ofList (xs : List ℤ)
  | iterator (xs : List ℤ)
  deriving Repr, DecidableEq

/-- `as_array` (lines 677-690) at `dtype=int`, as invoked by the `core_idx`
setter with `ndmin=1`.  An iterator goes through `np.fromiter` and a list
through `np.array`, both yielding 1-D arrays, so the `ret.ndim < ndmin`
adjustment is skipped.  A single integer yields a 0-D array, whereupon
line 689 evaluates `ret.ndmin` — an attribute `np.ndarray` does not have
(the author meant `ret.ndim`) — and raises `AttributeError`.  No range or
integrality validation of any kind is performed anywhere in the function. -/
def as_array (v : CoreIdxInput) (ndmin : ℕ) : Except PyErr (List ℤ) :=
  match v with
  | .iterator xs =>
    if 1 < ndmin then .error (.attributeError "ndarray object has no attribute ndmin")
    else .ok xs
  | .ofList xs =>
    if 1 < ndmin then .error (.attributeError "ndarray object has no attribute ndmin")
    else .ok xs
  | .scalar n =>
    if 0 < ndmin then .error (.attributeError "ndarray object has no attribute ndmin")
    else .ok [n]

/-- The `core_idx` property setter (lines 179-183): `as_array(value,
dtype=int, ndmin=1)`, then `core_idx -= 1` and an in-place ascending sort.
There is no deduplication and no range check; 1-based inputs are shifted to
0-based by plain subtraction. -/
def core_idx_set (v : CoreIdxInput) : Except PyErr (List ℤ) :=
  (as_array v 1).map (fun a => (a.map (fun x => x - 1)).insertionSort (· ≤ ·))

/-- One step of the dictionary/bound-append loop of `partition_mol`
(lines 573-581): append index `i` to the entry keyed `k`, or create the
entry `{k: [i]}` if the key is new (insertion-ordered dictionary modelled
as an association list). -/
def partitionAdd (acc : List (ℤ × List ℕ)) (k : ℤ) (i : ℕ) : List (ℤ × List ℕ) :=
  match acc with
  | [] => [(k, [i])]
  | (k2, l) :: rest =>
    if k2 = k then (k2, l ++ [i]) :: rest else (k2, l) :: partitionAdd rest k i

/-- `MolDissociater.partition_mol` (lines 554-582): partition the 1-based
atom indices (`enumerate(self.mol, 1)`) by `key(atom)` — by default the
residue number — keeping both first-occurrence key order and ascending index
order inside each group. -/
def partition_mol (mol : Molecule α) (key : Atom α → ℤ) : List (ℤ × List ℕ) :=
  (List.enumFrom 1 mol.atoms).foldl (fun acc ia => partitionAdd acc (key ia.2) ia.1) []

/-- Invariant of the `partition_mol` fold before processing index `b`: keys
are unique; every recorded index carries its own key, is at least 1 and
below `b`; every group is strictly increasing; and every index in `[1, b)`
is recorded under its key. -/
def PartitionInv (f : ℕ → ℤ) (b : ℕ) (acc : List (ℤ × List ℕ)) : Prop :=
  (acc.map Prod.fst).Nodup ∧
  (∀ kl ∈ acc, ∀ i ∈ kl.2, f i = kl.1 ∧ 1 ≤ i ∧ i < b) ∧
  (∀ kl ∈ acc, List.Chain' (· < ·) kl.2) ∧
  (∀ i, 1 ≤ i → i < b → ∃ l, acc.lookup (f i) = some l ∧ i ∈ l)

/-- `MolDissociater._core_neighbours` with `smiles=None` (lines 607-609):
`return iter((1 + core).tolist())` — an iterator over *bare integers*
`1 + core[r]` (its own docstring promises "each element from core in a
tuple", and the downstream `__call__` subscripts each element, so the bare
integer is a slip). -/
def _core_neighbours_none (core : List ℕ) : List ℕ := core.map (fun a => 1 + a)

/-- `MolDissociater.get_combinations` with `core_smiles=None`
(lines 446-484).  `cor_lig_pairs + 1` converts every record column to
1-based; the ligand columns (`[:, 1:]`) are then used as residue keys into
`partition_dict`, and the rows are zipped against `_core_neighbours`'
iterator over the *engine's* `1 + core_idx` values (`zip` truncates to the
shorter side, and the record's own core column is ignored).  Each emitted
record is `(core, ligand_groups)` where `core` is the bare integer from
`_core_neighbours_none` and each ligand-group entry holds the
`partition_dict[lig]` list wrapped by the (never-iterated)
`chain.from_iterable(partition_dict[lig])` object of line 473 — the
misplaced parenthesis builds one chain object per ligand instead of
flattening, and iterating such an object would raise `TypeError` since its
elements are plain integers.  A ligand key absent from the partition raises
`KeyError` while the record is built. -/
def get_combinations (partition : List (ℤ × List ℕ)) (core : List ℕ)
    (cor_lig_pairs : List (List ℕ)) : Except PyErr (List (ℕ × List (List ℕ))) :=
  let ligand_list := cor_lig_pairs.map (fun row => (row.drop 1).map (fun x => x + 1))
  let core_iterator := _core_neighbours_none core
  (core_iterator.zip ligand_list).mapM (fun cl =>
    (cl.2.mapM (fun lig => match partition.lookup (Int.ofNat lig) with
      | some l => Except.ok l
      | none => Except.error PyErr.keyError)).map (fun gs => (cl.1, gs)))

/-- `np.intersect1d(a, b)` (without `return_indices`): the sorted unique
values present in both arrays (the second flattened). -/
def intersect1d (a b : List ℕ) : List ℕ :=
  ((a.filter (fun x => x ∈ b)).dedup).insertionSort (· ≤ ·)

/-- `np.setdiff1d(a, b)`: the sorted unique values of `a` absent from `b`
(the payload constructed by `MolDissociater._ValueError`, lines 486-492). -/
def setdiff1d (a b : List ℕ) : List ℕ :=
  ((a.filter (fun x => x ∉ b)).dedup).insertionSort (· ≤ ·)

/-- `MolDissociater._core_neighbours` with a substructure query
(lines 611-627); the external matcher's result is supplied as `matches`
(one fixed-width row of 0-based atom indices per match).  Line 618 runs
`intersect, _, _idx = np.intersect1d(core, matches)`: without
`return_indices=True`, `np.intersect1d` returns a *single* array, so the
triple unpack iterates it and raises `ValueError` unless the intersection
has exactly three elements.  When it does, line 619 evaluates
`(intersect != core).all()` — an elementwise broadcast that itself raises
`ValueError` unless `len(core)` is 1 or 3 — and raises the "absent atoms"
`ValueError` built by `_ValueError` when every compared position differs;
otherwise `_idx` (which now holds the *third intersection value*, not an
index array) is floor-divided by the match width and used to select a
single match row, returned with `+ 1`. -/
def _core_neighbours_smiles (core : List ℕ) (matchesL : List (List ℕ)) :
    Except PyErr (List ℕ) :=
  let intersect := intersect1d core matchesL.flatten
  match intersect with
  | [a, b, c] =>
    if core.length = 3 ∨ core.length = 1 then
      let ne_all :=
        if core.length = 3 then
          (([a, b, c]).zip core).all (fun xy => xy.1 ≠ xy.2)
        else ([a, b, c]).all (fun x => x ≠ core.getD 0 0)
      if ne_all then
        .error (.valueError ("absent atoms: " ++ toString (setdiff1d core intersect)))
      else
        let w := (matchesL.getD 0 []).length
        let row := matchesL.getD (c / w) []
        .ok (row.map (fun x => x + 1))
    else .error (.valueError "operands could not be broadcast together")
  | _ => .error (.valueError "not enough values to unpack")

/-- `mol[i]`: PLAMS 1-based atom access with an integer index; any other
argument shape (in particular a list) raises. -/
def molGet (mol : Molecule α) (i : ℕ) : Except PyErr (Atom α) :=
  if 1 ≤ i ∧ i ≤ mol.atoms.length then .ok (mol.atoms.getD (i - 1) dummyAtom)
  else .error (.typeError "invalid atom index")

/-- One iteration of `MolDissociater.__call__`'s loop (lines 504-525) on a
`CombinationRecord` in the documented shape (core group: list of 1-based
indices; ligand groups: list of lists of 1-based indices).  In source
order:
* `core = mol_new[core_idx[0]]` (line 510; `IndexError` on an empty core
  group);
* `delete_at = [mol_new[i] for i in core_idx]` (line 511), resolving every
  core atom by identity;
* `delete_at += [mol_new[i] for i in lig_idx]` (line 512): each `i` here is
  a ligand *group* — a list — and `Molecule.__getitem__` rejects a list, so
  this raises `TypeError` whenever the record has at least one ligand group
  (lines 514-524 are then unreachable).  With zero ligand groups the loop
  completes: the resolved core atoms are deleted from the fresh copy and the
  copy is yielded. -/
def call_step (mol : Molecule α) (rec2 : List ℕ × List (List ℕ)) :
    Except PyErr (Molecule α) :=
  match rec2.1 with
  | [] => .error (.indexError "list index out of range")
  | c0 :: _ =>
    (molGet mol c0).bind (fun _core =>
      (rec2.1.mapM (fun i => molGet mol i)).bind (fun _deleteCore =>
        match rec2.2 with
        | _ :: _ => .error (.typeError "Molecule indices must be integers, not list")
        | [] =>
          .ok ⟨(List.range mol.atoms.length).filterMap (fun p =>
            if p + 1 ∈ rec2.1 then none else some (mol.atoms.getD p dummyAtom))⟩))

/-- `MolDissociater.__call__` (lines 496-525): the generator over all
combination records, driven to a list; the first raising record aborts the
iteration with its exception. -/
def dissociater_call (mol : Molecule α)
    (records : List (List ℕ × List (List ℕ))) : Except PyErr (List (Molecule α)) :=
  records.mapM (fun rec2 => call_step mol rec2)

/-! ## Lemmas about `argsort` -/

theorem argsort_perm (xs : List α) : List.Perm (argsort xs) (List.range xs.length) :=
  List.perm_insertionSort _ _

theorem argsort_length (xs : List α) : (argsort xs).length = xs.length := by
  simpa using (argsort_perm xs).length_eq

theorem argsort_nodup (xs : List α) : (argsort xs).Nodup :=
  ((argsort_perm xs).nodup_iff).mpr (List.nodup_range _)

theorem mem_argsort {xs : List α} {p : ℕ} : p ∈ argsort xs ↔ p < xs.length := by
  rw [(argsort_perm xs).mem_iff, List.mem_range]

theorem argsort_sorted (xs : List α) : List.Sorted (ArgLE xs) (argsort xs) :=
  List.sorted_insertionSort _ _

theorem argLE_le {xs : List α} {a b : ℕ} (h : ArgLE xs a b) :
    xs.getD a 0 ≤ xs.getD b 0 := by
  rcases h with h | ⟨h, _⟩
  · exact le_of_lt h
  · exact le_of_eq h

theorem argsort_take_drop_le (xs : List α) (k : ℕ) :
    ∀ i ∈ (argsort xs).take k, ∀ j ∈ (argsort xs).drop k,
      xs.getD i 0 ≤ xs.getD j 0 := by
  intro i hi j hj
  have hs := argsort_sorted xs
  rw [← List.take_append_drop k (argsort xs)] at hs
  exact argLE_le ((List.pairwise_append.mp hs).2.2 i hi j hj)

theorem mem_argsort_drop {xs : List α} {k p : ℕ} (hp : p < xs.length)
    (h : p ∉ (argsort xs).take k) : p ∈ (argsort xs).drop k := by
  have hmem : p ∈ argsort xs := mem_argsort.mpr hp
  rw [← List.take_append_drop k (argsort xs), List.mem_append] at hmem
  exact hmem.resolve_left h

/-! ## Claim C1 -/

/-- Claim C1 as frozen is false on the code: with `n_pairs = 1` the emitted
record is *not* expressed in 1-based atom indices.  Concrete input: four
atoms, core atom 1 (1-based) at the origin, anchors at atoms 3 and 4 with
squared distances 25 and 1.  The code emits `[0, 1, 0]` — the 0-based core
index followed by the positions (within the supplied anchor list) of the two
nearest anchors — whereas the claim predicts the 1-based record `[1, 4, 3]`
(or `[1, 3, 4]`). -/
theorem C1_counterexample :
    get_pairs_closest (xyzOf ([(0, 0, 0), (100, 100, 100), (5, 0, 0), (1, 0, 0)] : List (V3 ℤ)))
        [0] [3, 4] 2 1 = .ok [[0, 1, 0]] ∧
      ([[0, 1, 0]] : List (List ℕ)) ≠ [[1, 4, 3]] ∧
      ([[0, 1, 0]] : List (List ℕ)) ≠ [[1, 3, 4]] := by
  exact ⟨by rfl, by decide, by decide⟩

/-- Claim C1, amended: for every structure, core index set and anchor list
with at least two anchors, `get_pairs_closest` with `n_pairs = 1` returns
exactly one record per core atom; each record is the *0-based* core index
followed by two distinct *positions into the supplied anchor list* — the
positions of the two anchors nearest (by Euclidean distance) to that core
atom, nearest first — not 1-based atom indices. -/
theorem C1_amended (xyz : ℕ → V3 α) (core lig_idx : List ℕ) (n : ℕ)
    (hlig : 2 ≤ lig_idx.length) :
    ∃ recs, get_pairs_closest xyz core lig_idx n 1 = .ok recs ∧
      recs.length = core.length ∧
      ∀ r, r < core.length →
        ∃ p1 p2, recs.getD r [] = [core.getD r 0, p1, p2] ∧
          p1 ≠ p2 ∧ p1 < lig_idx.length ∧ p2 < lig_idx.length ∧
          (distRow xyz (lig_idx.map (· - 1)) (core.getD r 0)).getD p1 0 ≤
            (distRow xyz (lig_idx.map (· - 1)) (core.getD r 0)).getD p2 0 ∧
          (∀ p, p < lig_idx.length → p ≠ p1 → p ≠ p2 →
            (distRow xyz (lig_idx.map (· - 1)) (core.getD r 0)).getD p2 0 ≤
              (distRow xyz (lig_idx.map (· - 1)) (core.getD r 0)).getD p 0) := by
  refine ⟨(core.map fun a => a :: (argsort (distRow xyz (lig_idx.map (· - 1)) a)).take 2),
    rfl, by simp, ?_⟩
  intro r hr
  have hcr : core.getD r 0 = core[r] := List.getD_eq_getElem _ _ hr
  set j := lig_idx.map (· - 1) with hj
  set row := distRow xyz j core[r] with hrowdef
  have hrowlen : row.length = lig_idx.length := by
    simp [hrowdef, distRow, hj]
  have hlen : (argsort row).length = lig_idx.length := by
    rw [argsort_length, hrowlen]
  obtain ⟨p1, p2, rest, hsplit⟩ : ∃ p1 p2 rest, argsort row = p1 :: p2 :: rest := by
    match hq : argsort row with
    | [] => rw [hq] at hlen; simp at hlen; omega
    | [x] => rw [hq] at hlen; simp at hlen; omega
    | x :: y :: r2 => exact ⟨x, y, r2, rfl⟩
  have htake : (argsort row).take 2 = [p1, p2] := by rw [hsplit]; rfl
  have hrec : (core.map fun a =>
      a :: (argsort (distRow xyz j a)).take 2).getD r [] = core[r] :: [p1, p2] := by
    rw [List.getD_eq_getElem _ _ (by simpa using hr), List.getElem_map, ← hrowdef, htake]
  have hmem1 : p1 ∈ argsort row := by rw [hsplit]; exact List.mem_cons_self _ _
  have hmem2 : p2 ∈ argsort row := by
    rw [hsplit]; exact List.mem_cons_of_mem _ (List.mem_cons_self _ _)
  have hp1 : p1 < lig_idx.length := by
    have := mem_argsort.mp hmem1; omega
  have hp2 : p2 < lig_idx.length := by
    have := mem_argsort.mp hmem2; omega
  have hne : p1 ≠ p2 := by
    have hnd := argsort_nodup row
    rw [hsplit, List.nodup_cons] at hnd
    exact fun h => hnd.1 (h ▸ List.mem_cons_self _ _)
  have hsorted := argsort_sorted row
  have h12 : row.getD p1 0 ≤ row.getD p2 0 := by
    rw [hsplit] at hsorted
    exact argLE_le ((List.pairwise_cons.mp hsorted).1 p2
      (List.mem_cons_self _ _))
  refine ⟨p1, p2, by rw [hcr, hrec], hne, hp1, hp2, by rw [hcr]; exact h12, ?_⟩
  intro p hp hne1 hne2
  have hpdrop : p ∈ (argsort row).drop 2 := by
    refine mem_argsort_drop (by omega) ?_
    rw [htake]
    simp [hne1, hne2]
  have hp2take : p2 ∈ (argsort row).take 2 := by
    rw [htake]; exact List.mem_cons_of_mem _ (List.mem_cons_self _ _)
  rw [hcr]
  exact argsort_take_drop_le row 2 p2 hp2take p hpdrop

/-- Witness for `C1_amended` at the concrete input of the counterexample. -/
theorem C1_amended_witness :
    2 ≤ ([3, 4] : List ℕ).length ∧
      (∃ recs, get_pairs_closest
          (xyzOf ([(0, 0, 0), (100, 100, 100), (5, 0, 0), (1, 0, 0)] : List (V3 ℤ))) [0] [3, 4] 2 1
            = .ok recs ∧
        recs.length = ([0] : List ℕ).length ∧
        ∀ r, r < ([0] : List ℕ).length →
          ∃ p1 p2, recs.getD r [] = [([0] : List ℕ).getD r 0, p1, p2] ∧
            p1 ≠ p2 ∧ p1 < ([3, 4] : List ℕ).length ∧ p2 < ([3, 4] : List ℕ).length ∧
            (distRow (xyzOf ([(0, 0, 0), (100, 100, 100), (5, 0, 0), (1, 0, 0)] : List (V3 ℤ)))
                (([3, 4] : List ℕ).map (· - 1)) (([0] : List ℕ).getD r 0)).getD p1 0 ≤
              (distRow (xyzOf ([(0, 0, 0), (100, 100, 100), (5, 0, 0), (1, 0, 0)] : List (V3 ℤ)))
                (([3, 4] : List ℕ).map (· - 1)) (([0] : List ℕ).getD r 0)).getD p2 0 ∧
            (∀ p, p < ([3, 4] : List ℕ).length → p ≠ p1 → p ≠ p2 →
              (distRow (xyzOf ([(0, 0, 0), (100, 100, 100), (5, 0, 0), (1, 0, 0)] : List (V3 ℤ)))
                  (([3, 4] : List ℕ).map (· - 1)) (([0] : List ℕ).getD r 0)).getD p2 0 ≤
                (distRow (xyzOf ([(0, 0, 0), (100, 100, 100), (5, 0, 0), (1, 0, 0)] : List (V3 ℤ)))
                  (([3, 4] : List ℕ).map (· - 1)) (([0] : List ℕ).getD r 0)).getD p 0)) :=
  ⟨by decide, C1_amended
    (xyzOf ([(0, 0, 0), (100, 100, 100), (5, 0, 0), (1, 0, 0)] : List (V3 ℤ))) [0] [3, 4] 2 (by decide)⟩

/-! ## Lemmas about `combinationsList` -/

theorem combinationsList_length_mem {β : Type} {n : ℕ} {xs c : List β}
    (h : c ∈ combinationsList n xs) : c.length = n := by
  induction xs generalizing n c with
  | nil =>
    cases n with
    | zero => simp [combinationsList] at h; simp [h]
    | succ n => simp [combinationsList] at h
  | cons x xs ih =>
    cases n with
    | zero => simp [combinationsList] at h; simp [h]
    | succ n =>
      simp only [combinationsList, List.mem_append, List.mem_map] at h
      rcases h with ⟨c2, hc2, rfl⟩ | h
      · simp [ih hc2]
      · exact ih h

theorem combinationsList_subset {β : Type} {n : ℕ} {xs c : List β}
    (h : c ∈ combinationsList n xs) : c ⊆ xs := by
  induction xs generalizing n c with
  | nil =>
    cases n with
    | zero => simp [combinationsList] at h; simp [h]
    | succ n => simp [combinationsList] at h
  | cons x xs ih =>
    cases n with
    | zero => simp [combinationsList] at h; simp [h]
    | succ n =>
      simp only [combinationsList, List.mem_append, List.mem_map] at h
      rcases h with ⟨c2, hc2, rfl⟩ | h
      · exact List.cons_subset_cons x (ih hc2)
      · exact List.subset_cons_of_subset x (ih h)

theorem combinationsList_length {β : Type} (n : ℕ) (xs : List β) :
    (combinationsList n xs).length = xs.length.choose n := by
  induction xs generalizing n with
  | nil =>
    cases n with
    | zero => simp [combinationsList]
    | succ n => simp [combinationsList]
  | cons x xs ih =>
    cases n with
    | zero => simp [combinationsList]
    | succ n =>
      simp only [combinationsList, List.length_append, List.length_map, ih,
        List.length_cons, Nat.choose_succ_succ]

/-! ## Lemmas about `flatMap` with constant block length -/

theorem length_flatMap_const {β γ : Type} (l : List β) (f : β → List γ) (L : ℕ)
    (hf : ∀ b ∈ l, (f b).length = L) :
    (l.flatMap f).length = l.length * L := by
  induction l with
  | nil => simp
  | cons x xs ih =>
    simp only [List.flatMap_cons, List.length_append, List.length_cons]
    rw [hf x (List.mem_cons_self _ _), ih (fun b hb => hf b (List.mem_cons_of_mem _ hb))]
    ring

theorem getD_flatMap_const {β γ : Type} (l : List β) (f : β → List γ) (L : ℕ) (d : γ)
    (hf : ∀ b ∈ l, (f b).length = L) :
    ∀ r q, (hr : r < l.length) → q < L →
      (l.flatMap f).getD (r * L + q) d = (f l[r]).getD q d := by
  induction l with
  | nil => intro r q hr _; simp at hr
  | cons x xs ih =>
    intro r q hr hq
    cases r with
    | zero =>
      simp only [List.flatMap_cons, Nat.zero_mul, Nat.zero_add]
      rw [List.getD_append _ _ _ _ (by rw [hf x (List.mem_cons_self _ _)]; exact hq)]
      rfl
    | succ r =>
      simp only [List.flatMap_cons]
      have hx : (f x).length = L := hf x (List.mem_cons_self _ _)
      have harith : (r + 1) * L + q = (f x).length + (r * L + q) := by
        rw [hx]; ring
      rw [harith, List.getD_append_right _ _ _ _ (by omega)]
      have hsub : (f x).length + (r * L + q) - (f x).length = r * L + q := by omega
      rw [hsub]
      have hr2 : r < xs.length := by
        have := hr; simp only [List.length_cons] at this; omega
      rw [ih (fun b hb => hf b (List.mem_cons_of_mem _ hb)) r q hr2 hq]
      simp

theorem getD_map_lt {β γ : Type} (l : List β) (f : β → γ) (d : γ) (d2 : β) {q : ℕ}
    (hq : q < l.length) : (l.map f).getD q d = f (l.getD q d2) := by
  rw [List.getD_eq_getElem _ _ (by simpa using hq), List.getElem_map,
    List.getD_eq_getElem _ _ hq]

theorem pairNorms_length (xyz : ℕ → V3 α) (j : List ℕ) (a : ℕ) (n n_pairs : ℕ) :
    (pairNorms xyz j a n n_pairs).length
      = (combinationsList n (List.range (1 + n_pairs))).length := by
  simp [pairNorms]

/-! ## Claim C3 -/

/-- Claim C3 as frozen is false on the code: the candidate pool in the
`n_pairs > 1` branch is the `1 + n_pairs` nearest anchors (`[:, :1+n_pairs]`,
line 384), not the `n_pairs + n` nearest.  Concrete input: one core atom at
the origin, six anchors at x = 1, 2, 10, 11, 12, 13 (squared distances
1, 4, 100, 121, 144, 169 — tie-free), `ligand_count = 3`, `n_pairs = 3`.
The code pools 4 candidates and its three best subsets are
`{1, 2, 10}, {1, 2, 11}, {1, 10, 11}` (positions `[0,1,2], [0,1,3], [0,2,3]`),
while the claim's procedure pools `3 + 3 = 6` candidates and selects
`{1, 2, 10}, {1, 2, 11}, {1, 2, 12}` (positions `[0,1,2], [0,1,3], [0,1,4]`);
the third record differs. -/
theorem C3_counterexample :
    get_pairs_closest
        (xyzOf ([(0, 0, 0), (1, 0, 0), (2, 0, 0), (10, 0, 0), (11, 0, 0), (12, 0, 0),
          (13, 0, 0)] : List (V3 ℤ))) [0] [2, 3, 4, 5, 6, 7] 3 3
      = .ok [[0, 0, 1, 2], [0, 0, 1, 3], [0, 0, 2, 3]] ∧
    claim_pairs_closest
        (xyzOf ([(0, 0, 0), (1, 0, 0), (2, 0, 0), (10, 0, 0), (11, 0, 0), (12, 0, 0),
          (13, 0, 0)] : List (V3 ℤ))) [0] [2, 3, 4, 5, 6, 7] 3 3
      = [[0, 0, 1, 2], [0, 0, 1, 3], [0, 0, 1, 4]] ∧
    ([[0, 0, 1, 2], [0, 0, 1, 3], [0, 0, 2, 3]] : List (List ℕ))
      ≠ [[0, 0, 1, 2], [0, 0, 1, 3], [0, 0, 1, 4]] :=
  ⟨by rfl, by rfl, by decide⟩

/-- Claim C3, amended: with `n_pairs > 1`, enough anchors, and at least
`n_pairs` enumerable subsets, the candidate pool per core atom is the
`1 + n_pairs` (not `n_pairs + n`) nearest anchors; all
`C(1 + n_pairs, n)` size-`n` subsets of that pool are enumerated
(`combinationsList n (range (1 + n_pairs))`), each scored by the Euclidean
norm of its member distances (`pairNorms`), and exactly the `n_pairs`
smallest-norm subsets are selected, ascending, with one record per selected
subset per core atom (records grouped by core atom, `n_pairs` consecutive
records each). -/
theorem C3_amended (xyz : ℕ → V3 α) (core lig_idx : List ℕ) (n n_pairs : ℕ)
    (hnp : 2 ≤ n_pairs)
    (hlig : 1 + n_pairs ≤ lig_idx.length)
    (hcomb : n_pairs ≤ (combinationsList n (List.range (1 + n_pairs))).length)
    (hcore : core ≠ []) :
    ∃ recs, get_pairs_closest xyz core lig_idx n n_pairs = .ok recs ∧
      recs.length = core.length * n_pairs ∧
      ∀ r, r < core.length →
        ∃ selPos : List ℕ,
          selPos.length = n_pairs ∧ selPos.Nodup ∧
          (∀ s ∈ selPos, s < (combinationsList n (List.range (1 + n_pairs))).length) ∧
          (∀ q, q < n_pairs →
            (combinationsList n (List.range (1 + n_pairs))).getD (selPos.getD q 0) []
                ∈ combinationsList n (List.range (1 + n_pairs)) ∧
              recs.getD (r * n_pairs + q) [] =
                core.getD r 0 ::
                  ((combinationsList n (List.range (1 + n_pairs))).getD (selPos.getD q 0) []).map
                    (fun p =>
                      (idxSmall xyz (lig_idx.map (· - 1)) (core.getD r 0) n_pairs).getD p 0)) ∧
          (∀ q q2, q ≤ q2 → q2 < n_pairs →
            (pairNorms xyz (lig_idx.map (· - 1)) (core.getD r 0) n n_pairs).getD
                (selPos.getD q 0) 0 ≤
              (pairNorms xyz (lig_idx.map (· - 1)) (core.getD r 0) n n_pairs).getD
                (selPos.getD q2 0) 0) ∧
          (∀ t, t < (combinationsList n (List.range (1 + n_pairs))).length → t ∉ selPos →
            ∀ q, q < n_pairs →
              (pairNorms xyz (lig_idx.map (· - 1)) (core.getD r 0) n n_pairs).getD
                  (selPos.getD q 0) 0 ≤
                (pairNorms xyz (lig_idx.map (· - 1)) (core.getD r 0) n n_pairs).getD t 0) := by
  have h0 : ¬n_pairs = 0 := by omega
  have h1 : ¬n_pairs = 1 := by omega
  have hany : ¬((combinationsList n (List.range (1 + n_pairs))).any
      (fun c => c.any
        (fun p => min (1 + n_pairs) (lig_idx.map (· - 1)).length ≤ p)) = true) := by
    simp only [List.any_eq_true, decide_eq_true_eq, List.length_map]
    push_neg
    intro c hc p hp
    have hplt : p < 1 + n_pairs := List.mem_range.mp (combinationsList_subset hc hp)
    omega
  have h3 : ¬((combinationsList n (List.range (1 + n_pairs))).length < n_pairs ∧
      core ≠ []) := by
    intro h; omega
  -- the function mapped over the core atoms (lines 393-398, one row group)
  set f : ℕ → List (List ℕ) := fun a =>
    (((argsort (pairNorms xyz (lig_idx.map (· - 1)) a n n_pairs)).take n_pairs).map
        (fun q => (combinationsList n (List.range (1 + n_pairs))).getD q [])).map
      (fun c => a :: c.map
        (fun p => (idxSmall xyz (lig_idx.map (· - 1)) a n_pairs).getD p 0)) with hfdef
  have hok : get_pairs_closest xyz core lig_idx n n_pairs = .ok (core.flatMap f) := by
    simp only [get_pairs_closest, hfdef]
    rw [if_neg h0, if_neg h1, if_neg hany, if_neg h3, if_neg hcore]
  have hblock : ∀ a ∈ core, (f a).length = n_pairs := by
    intro a _
    simp only [hfdef, List.length_map, List.length_take]
    rw [argsort_length, pairNorms_length]
    omega
  refine ⟨core.flatMap f, hok, length_flatMap_const core f n_pairs hblock, ?_⟩
  intro r hr
  set a := core.getD r 0 with hadef
  set norms := pairNorms xyz (lig_idx.map (· - 1)) a n n_pairs with hnormsdef
  have hnormslen : norms.length
      = (combinationsList n (List.range (1 + n_pairs))).length := by
    rw [hnormsdef, pairNorms_length]
  set selPos := (argsort norms).take n_pairs with hseldef
  have hsellen : selPos.length = n_pairs := by
    rw [hseldef, List.length_take, argsort_length, hnormslen]
    omega
  have hselsub : ∀ s ∈ selPos, s ∈ argsort norms := fun s hs => List.take_subset _ _ hs
  have hselbound : ∀ s ∈ selPos,
      s < (combinationsList n (List.range (1 + n_pairs))).length := by
    intro s hs
    have := mem_argsort.mp (hselsub s hs)
    omega
  have hcorer : core.getD r 0 = core[r] := List.getD_eq_getElem _ _ hr
  have hfa : f a = selPos.map
      (fun s => a :: ((combinationsList n (List.range (1 + n_pairs))).getD s []).map
        (fun p => (idxSmall xyz (lig_idx.map (· - 1)) a n_pairs).getD p 0)) := by
    rw [hfdef]
    simp only [List.map_map]
    rfl
  refine ⟨selPos, hsellen, (argsort_nodup norms).sublist (List.take_sublist _ _), hselbound,
    ?_, ?_, ?_⟩
  · intro q hq
    have hqsel : q < selPos.length := by omega
    have hmemc : selPos.getD q 0
        < (combinationsList n (List.range (1 + n_pairs))).length :=
      hselbound _ (by rw [List.getD_eq_getElem _ _ hqsel]; exact List.getElem_mem _)
    constructor
    · rw [List.getD_eq_getElem _ _ hmemc]
      exact List.getElem_mem _
    · rw [getD_flatMap_const core f n_pairs [] hblock r q hr hq, ← hcorer, ← hadef, hfa,
        getD_map_lt _ _ _ 0 hqsel]
  · intro q q2 hqq hq2
    rcases Nat.eq_or_lt_of_le hqq with rfl | hlt
    · exact le_refl _
    have hq2sel : q2 < selPos.length := by omega
    have hqsel : q < selPos.length := by omega
    have hsorted : List.Sorted (ArgLE norms) selPos :=
      (argsort_sorted norms).sublist (List.take_sublist _ _)
    have hrel := List.pairwise_iff_getElem.mp hsorted q q2 (by omega) (by omega) hlt
    have hle : ArgLE norms (selPos.getD q 0) (selPos.getD q2 0) := by
      rwa [List.getD_eq_getElem _ _ hqsel, List.getD_eq_getElem _ _ hq2sel]
    exact argLE_le hle
  · intro t ht htns q hq
    have hqsel : q < selPos.length := by omega
    have htdrop : t ∈ (argsort norms).drop n_pairs := by
      refine mem_argsort_drop (by omega) ?_
      rw [← hseldef]; exact htns
    have hqtake : selPos.getD q 0 ∈ (argsort norms).take n_pairs := by
      rw [← hseldef, List.getD_eq_getElem _ _ hqsel]
      exact List.getElem_mem _
    exact argsort_take_drop_le norms n_pairs _ hqtake t htdrop

/-- Witness for `C3_amended` at the counterexample's concrete input. -/
theorem C3_amended_witness :
    (2 ≤ 3 ∧ 1 + 3 ≤ ([2, 3, 4, 5, 6, 7] : List ℕ).length ∧
        3 ≤ (combinationsList 3 (List.range (1 + 3))).length ∧ ([0] : List ℕ) ≠ []) ∧
      (∃ recs, get_pairs_closest
          (xyzOf ([(0, 0, 0), (1, 0, 0), (2, 0, 0), (10, 0, 0), (11, 0, 0), (12, 0, 0),
            (13, 0, 0)] : List (V3 ℤ))) [0] [2, 3, 4, 5, 6, 7] 3 3 = .ok recs ∧
        recs.length = ([0] : List ℕ).length * 3 ∧
        ∀ r, r < ([0] : List ℕ).length →
          ∃ selPos : List ℕ,
            selPos.length = 3 ∧ selPos.Nodup ∧
            (∀ s ∈ selPos, s < (combinationsList 3 (List.range (1 + 3))).length) ∧
            (∀ q, q < 3 →
              (combinationsList 3 (List.range (1 + 3))).getD (selPos.getD q 0) []
                  ∈ combinationsList 3 (List.range (1 + 3)) ∧
                recs.getD (r * 3 + q) [] =
                  ([0] : List ℕ).getD r 0 ::
                    ((combinationsList 3 (List.range (1 + 3))).getD (selPos.getD q 0) []).map
                      (fun p =>
                        (idxSmall
                          (xyzOf ([(0, 0, 0), (1, 0, 0), (2, 0, 0), (10, 0, 0), (11, 0, 0),
                            (12, 0, 0), (13, 0, 0)] : List (V3 ℤ)))
                          (([2, 3, 4, 5, 6, 7] : List ℕ).map (· - 1))
                          (([0] : List ℕ).getD r 0) 3).getD p 0)) ∧
            (∀ q q2, q ≤ q2 → q2 < 3 →
              (pairNorms
                  (xyzOf ([(0, 0, 0), (1, 0, 0), (2, 0, 0), (10, 0, 0), (11, 0, 0),
                    (12, 0, 0), (13, 0, 0)] : List (V3 ℤ)))
                  (([2, 3, 4, 5, 6, 7] : List ℕ).map (· - 1))
                  (([0] : List ℕ).getD r 0) 3 3).getD (selPos.getD q 0) 0 ≤
                (pairNorms
                  (xyzOf ([(0, 0, 0), (1, 0, 0), (2, 0, 0), (10, 0, 0), (11, 0, 0),
                    (12, 0, 0), (13, 0, 0)] : List (V3 ℤ)))
                  (([2, 3, 4, 5, 6, 7] : List ℕ).map (· - 1))
                  (([0] : List ℕ).getD r 0) 3 3).getD (selPos.getD q2 0) 0) ∧
            (∀ t, t < (combinationsList 3 (List.range (1 + 3))).length → t ∉ selPos →
              ∀ q, q < 3 →
                (pairNorms
                    (xyzOf ([(0, 0, 0), (1, 0, 0), (2, 0, 0), (10, 0, 0), (11, 0, 0),
                      (12, 0, 0), (13, 0, 0)] : List (V3 ℤ)))
                    (([2, 3, 4, 5, 6, 7] : List ℕ).map (· - 1))
                    (([0] : List ℕ).getD r 0) 3 3).getD (selPos.getD q 0) 0 ≤
                  (pairNorms
                    (xyzOf ([(0, 0, 0), (1, 0, 0), (2, 0, 0), (10, 0, 0), (11, 0, 0),
                      (12, 0, 0), (13, 0, 0)] : List (V3 ℤ)))
                    (([2, 3, 4, 5, 6, 7] : List ℕ).map (· - 1))
                    (([0] : List ℕ).getD r 0) 3 3).getD t 0)) :=
  ⟨⟨by decide, by decide, by decide, by decide⟩,
    C3_amended
      (xyzOf ([(0, 0, 0), (1, 0, 0), (2, 0, 0), (10, 0, 0), (11, 0, 0), (12, 0, 0),
        (13, 0, 0)] : List (V3 ℤ))) [0] [2, 3, 4, 5, 6, 7] 3 3
      (by decide) (by decide) (by decide) (by decide)⟩

/-! ## Lemmas about `groupByFst` and `flatMap` blocks -/

theorem groupByFst_keys {l : List (ℕ × ℕ)} :
    ∀ kg ∈ groupByFst l, kg.1 ∈ l.map Prod.fst := by
  induction l with
  | nil => intro kg h; simp [groupByFst] at h
  | cons p ps ih =>
    intro kg h
    rw [groupByFst] at h
    rcases hG : groupByFst ps with _ | ⟨⟨k, g⟩, rest⟩
    · simp only [hG] at h
      simp at h
      simp [h]
    · simp only [hG] at h
      by_cases hpk : p.1 = k
      · rw [if_pos hpk] at h
        rcases List.mem_cons.mp h with rfl | hmem
        · simp [hpk]
        · have hkg : kg ∈ groupByFst ps := by rw [hG]; exact List.mem_cons_of_mem _ hmem
          exact List.mem_cons_of_mem _ (ih kg hkg)
      · rw [if_neg hpk] at h
        rcases List.mem_cons.mp h with rfl | hmem
        · simp
        · have hkg : kg ∈ groupByFst ps := by rw [hG]; exact hmem
          exact List.mem_cons_of_mem _ (ih kg hkg)

theorem groupByFst_append_run (r : ℕ) (xs ys : List (ℕ × ℕ))
    (hxs : ∀ p ∈ xs, p.1 = r)
    (hys : ∀ kg ∈ groupByFst ys, kg.1 ≠ r) :
    groupByFst (xs ++ ys)
      = if xs = [] then groupByFst ys else (r, xs) :: groupByFst ys := by
  induction xs with
  | nil => simp
  | cons p xs2 ih =>
    have hp : p.1 = r := hxs p (List.mem_cons_self _ _)
    have hxs2 : ∀ q ∈ xs2, q.1 = r := fun q hq => hxs q (List.mem_cons_of_mem _ hq)
    rw [if_neg (List.cons_ne_nil p xs2), List.cons_append, groupByFst, ih hxs2]
    by_cases hnil : xs2 = []
    · subst hnil
      simp only [if_pos rfl]
      rcases hG : groupByFst ys with _ | ⟨⟨k, g⟩, rest⟩
      · simp [hp]
      · have hk : k ≠ r := by
          simpa using hys (k, g) (by rw [hG]; exact List.mem_cons_self _ _)
        have hpk : ¬p.1 = k := by rw [hp]; exact fun h => hk h.symm
        simp [hpk, hp]
        exact fun h => hk h.symm
    · simp only [if_neg hnil]
      simp [hp]

theorem groupByFst_flatMap (rows : List ℕ) (g : ℕ → List (ℕ × ℕ))
    (hg : ∀ r, ∀ p ∈ g r, p.1 = r) (hnd : rows.Nodup) :
    groupByFst (rows.flatMap g)
      = ((rows.map (fun r => (r, g r))).filter (fun kv => !kv.2.isEmpty)) := by
  induction rows with
  | nil => simp [groupByFst]
  | cons r rest ih =>
    have hndrest : rest.Nodup := (List.nodup_cons.mp hnd).2
    have hrnot : r ∉ rest := (List.nodup_cons.mp hnd).1
    have hys : ∀ kg ∈ groupByFst (rest.flatMap g), kg.1 ≠ r := by
      intro kg hkg
      have hk := groupByFst_keys kg hkg
      simp only [List.map_flatMap] at hk
      rcases List.mem_flatMap.mp hk with ⟨r2, hr2, hkmem⟩
      rcases List.mem_map.mp hkmem with ⟨p, hp, hpk⟩
      have : kg.1 = r2 := by rw [← hpk]; exact hg r2 p hp
      rw [this]
      exact fun h => hrnot (h ▸ hr2)
    rw [List.flatMap_cons, groupByFst_append_run r (g r) (rest.flatMap g) (hg r) hys,
      ih hndrest]
    by_cases hnil : g r = []
    · rw [if_pos hnil]
      simp [hnil]
    · rw [if_neg hnil]
      have hbe : (!(g r).isEmpty) = true := by
        simp [List.isEmpty_iff, hnil]
      simp only [List.map_cons, List.filter_cons, hbe]
      simp

theorem filter_flatMap_blocks {β γ : Type} (l : List β) (f : β → List γ) (p : γ → Bool) :
    (l.flatMap f).filter p = l.flatMap (fun b => (f b).filter p) := by
  induction l with
  | nil => simp
  | cons x xs ih => simp [List.flatMap_cons, List.filter_append, ih]

theorem flatMap_eq_nil_of_forall {β γ : Type} (l : List β) (f : β → List γ)
    (h : ∀ b ∈ l, f b = []) : l.flatMap f = [] := by
  induction l with
  | nil => simp
  | cons x xs ih =>
    rw [List.flatMap_cons, h x (List.mem_cons_self _ _), List.nil_append]
    exact ih (fun b hb => h b (List.mem_cons_of_mem _ hb))

theorem length_flatMap_range_single {β : Type} (m r : ℕ) (hr : r < m) (h : ℕ → List β)
    (hh : ∀ r2, r2 ≠ r → h r2 = []) :
    ((List.range m).flatMap h).length = (h r).length := by
  induction m with
  | zero => omega
  | succ m ih =>
    rw [List.range_succ, List.flatMap_append, List.length_append]
    by_cases hrm : r = m
    · have : (List.range m).flatMap h = [] := by
        refine flatMap_eq_nil_of_forall _ _ ?_
        intro b hb
        exact hh b (by have := List.mem_range.mp hb; omega)
      rw [this]
      simp [hrm]
    · have hr2 : r < m := by omega
      rw [ih hr2]
      have : h m = [] := hh m (by omega)
      simp [this]

theorem flatMap_filter_isEmpty {γ : Type} (rows : List ℕ) (g : ℕ → List (ℕ × ℕ))
    (F : ℕ × List (ℕ × ℕ) → List γ) (hF : ∀ r, g r = [] → F (r, g r) = []) :
    (((rows.map (fun r => (r, g r))).filter (fun kv => !kv.2.isEmpty)).flatMap F)
      = rows.flatMap (fun r => F (r, g r)) := by
  induction rows with
  | nil => simp
  | cons r rest ih =>
    simp only [List.map_cons, List.filter_cons]
    by_cases hnil : g r = []
    · have hb : (!(g r).isEmpty) = false := by simp [hnil]
      rw [hb]
      simp only [Bool.false_eq_true, if_false, List.flatMap_cons, hF r hnil,
        List.nil_append]
      exact ih
    · have hb : (!(g r).isEmpty) = true := by simp [List.isEmpty_iff, hnil]
      rw [hb]
      simp only [if_true, List.flatMap_cons]
      rw [ih]

/-! ## Claim C2 -/

/-- Claim C2 as frozen is false on the code: qualification is *not* "lies
strictly closer than `max_pair_dist`", because line 430 first overwrites the
positional diagonal of the (non-square, core-by-anchor) distance matrix with
the threshold.  Concrete input: one core atom at the origin and one anchor at
distance 1 (`distSq = 1 < 25 = maxDistSq`), `ligand_count = 1`.  The single
(core, anchor) entry sits at matrix position `(0, 0)`, is overwritten to the
threshold, and fails the strict test — the code emits no record, while the
claim demands exactly one (the anchor qualifies strictly). -/
theorem C2_counterexample :
    get_pairs_distance (xyzOf ([(0, 0, 0), (1, 0, 0)] : List (V3 ℤ))) [0] [2] 1 25 = [] ∧
      distSq ((0, 0, 0) : V3 ℤ) ((1, 0, 0) : V3 ℤ) < 25 ∧
      ([] : List (ℕ × List (ℕ × ℕ))).length ≠ 1 :=
  ⟨by rfl, by decide, by decide⟩

/-- Claim C2, amended (for `ligand_count ≥ 1`): a matrix entry
`(core row r, anchor column c)` *qualifies* iff its distance is strictly
below `max_pair_dist` **after** the positionally diagonal entries `r = c`
have been overwritten to exactly the threshold (`maskedDistD`).  Then
`get_pairs_distance` emits, for each core row `r` in ascending order, records
only if at least `ligand_count` entries qualify, and in that case exactly one
record per size-`ligand_count` combination of the qualifying entries in their
natural column order; each record couples the core row index with the chosen
(row, column) pairs.  In particular a row with `m` qualifying entries
contributes `C(m, ligand_count)` records — `1` when `m = ligand_count`,
`ligand_count + 1` when `m = ligand_count + 1`. -/
theorem C2_amended (xyz : ℕ → V3 α) (core lig_idx : List ℕ) (n : ℕ) (t : α)
    (hn : 1 ≤ n) :
    get_pairs_distance xyz core lig_idx n t
      = (List.range core.length).flatMap (fun r =>
          if n ≤ ((List.range (lig_idx.map (· - 1)).length).filterMap (fun c =>
              if maskedDistD xyz core (lig_idx.map (· - 1)) t r c < t then
                some (r, c) else none)).length then
            (combinationsList n
              ((List.range (lig_idx.map (· - 1)).length).filterMap (fun c =>
                if maskedDistD xyz core (lig_idx.map (· - 1)) t r c < t then
                  some (r, c) else none))).map (fun c => (r, c))
          else []) ∧
    ∀ r, r < core.length →
      ((get_pairs_distance xyz core lig_idx n t).filter
          (fun rec => rec.1 = r)).length
        = (if n ≤ ((List.range (lig_idx.map (· - 1)).length).filterMap (fun c =>
              if maskedDistD xyz core (lig_idx.map (· - 1)) t r c < t then
                some (r, c) else none)).length then
            (((List.range (lig_idx.map (· - 1)).length).filterMap (fun c =>
              if maskedDistD xyz core (lig_idx.map (· - 1)) t r c < t then
                some (r, c) else none)).length).choose n
          else 0) := by
  have hg : ∀ r, ∀ p ∈ ((List.range (lig_idx.map (· - 1)).length).filterMap (fun c =>
      if maskedDistD xyz core (lig_idx.map (· - 1)) t r c < t then
        some (r, c) else none)), p.1 = r := by
    intro r p hp
    rcases List.mem_filterMap.mp hp with ⟨c, _, hfc⟩
    split_ifs at hfc
    · obtain rfl := Option.some_inj.mp hfc
      rfl
  have hmain : get_pairs_distance xyz core lig_idx n t
      = (List.range core.length).flatMap (fun r =>
          if n ≤ ((List.range (lig_idx.map (· - 1)).length).filterMap (fun c =>
              if maskedDistD xyz core (lig_idx.map (· - 1)) t r c < t then
                some (r, c) else none)).length then
            (combinationsList n
              ((List.range (lig_idx.map (· - 1)).length).filterMap (fun c =>
                if maskedDistD xyz core (lig_idx.map (· - 1)) t r c < t then
                  some (r, c) else none))).map (fun c => (r, c))
          else []) := by
    simp only [get_pairs_distance, npWhereLT]
    rw [groupByFst_flatMap (List.range core.length) _ hg (List.nodup_range _)]
    rw [flatMap_filter_isEmpty (List.range core.length) _ _ ?hF]
    case hF =>
      intro r hr
      simp only [hr, List.length_nil]
      rw [if_neg (by omega)]
  refine ⟨hmain, ?_⟩
  intro r hr
  rw [hmain, filter_flatMap_blocks]
  rw [length_flatMap_range_single core.length r hr _ ?hnil]
  case hnil =>
    intro r2 hr2
    by_cases hle : n ≤ ((List.range (lig_idx.map (· - 1)).length).filterMap (fun c =>
        if maskedDistD xyz core (lig_idx.map (· - 1)) t r2 c < t then
          some (r2, c) else none)).length
    · rw [if_pos hle]
      rw [List.filter_eq_nil_iff]
      intro rec hrec
      rcases List.mem_map.mp hrec with ⟨c, _, rfl⟩
      simp [hr2]
    · rw [if_neg hle]
      rfl
  by_cases hle : n ≤ ((List.range (lig_idx.map (· - 1)).length).filterMap (fun c =>
      if maskedDistD xyz core (lig_idx.map (· - 1)) t r c < t then
        some (r, c) else none)).length
  · rw [if_pos hle, if_pos hle]
    have hall : ∀ rec ∈ (combinationsList n
        ((List.range (lig_idx.map (· - 1)).length).filterMap (fun c =>
          if maskedDistD xyz core (lig_idx.map (· - 1)) t r c < t then
            some (r, c) else none))).map (fun c => (r, c)),
        (fun rec => decide (rec.1 = r)) rec = true := by
      intro rec hrec
      rcases List.mem_map.mp hrec with ⟨c, _, rfl⟩
      simp
    rw [List.filter_eq_self.mpr hall, List.length_map, combinationsList_length]
  · rw [if_neg hle, if_neg hle]
    rfl

/-- Witness for `C2_amended`: one core atom at the origin, four anchors at
distances 1, 2, 3, 4 with threshold 5 (all squared); the positionally
diagonal first anchor is masked out, leaving `ligand_count + 1 = 3`
qualifying entries, so exactly `3 = C(3, 2)` records are emitted. -/
theorem C2_amended_witness :
    (1 : ℕ) ≤ 2 ∧
      ((get_pairs_distance
          (xyzOf ([(0, 0, 0), (1, 0, 0), (2, 0, 0), (3, 0, 0), (4, 0, 0)] : List (V3 ℤ)))
          [0] [2, 3, 4, 5] 2 25).filter (fun rec => rec.1 = 0)).length = 3 :=
  ⟨by decide, by
    have h := (C2_amended
      (xyzOf ([(0, 0, 0), (1, 0, 0), (2, 0, 0), (3, 0, 0), (4, 0, 0)] : List (V3 ℤ)))
      [0] [2, 3, 4, 5] 2 25 (by decide)).2 0 (by decide)
    rw [h]
    decide⟩

/-! ## Lemmas about `setTopologyAtoms`, `bincount` and `validCore` -/

theorem setTopologyAtoms_length (atoms : List (Atom α)) (j : ℕ) (top : String) :
    (setTopologyAtoms atoms j top).length = atoms.length := by
  induction atoms generalizing j with
  | nil => cases j <;> rfl
  | cons a as ih =>
    cases j with
    | zero => rfl
    | succ j2 => simp [setTopologyAtoms, ih]

theorem setTopologyAtoms_getD_ne (atoms : List (Atom α)) (j k : ℕ) (top : String)
    (h : k ≠ j) :
    (setTopologyAtoms atoms j top).getD k dummyAtom = atoms.getD k dummyAtom := by
  induction atoms generalizing j k with
  | nil => cases j <;> rfl
  | cons a as ih =>
    cases j with
    | zero =>
      cases k with
      | zero => exact absurd rfl h
      | succ k2 => rfl
    | succ j2 =>
      cases k with
      | zero => rfl
      | succ k2 => exact ih j2 k2 (by omega)

theorem setTopologyAtoms_getD_eq (atoms : List (Atom α)) (j : ℕ) (top : String)
    (h : j < atoms.length) :
    ((setTopologyAtoms atoms j top).getD j dummyAtom).topology = some top := by
  induction atoms generalizing j with
  | nil => simp at h
  | cons a as ih =>
    cases j with
    | zero => rfl
    | succ j2 => exact ih j2 (by simpa using h)

theorem foldl_setTopology_other (ps : List (ℕ × String)) (atoms : List (Atom α)) (k : ℕ)
    (h : ∀ pr ∈ ps, pr.1 ≠ k) :
    (ps.foldl (fun acc jt => setTopologyAtoms acc jt.1 jt.2) atoms).getD k dummyAtom
      = atoms.getD k dummyAtom := by
  induction ps generalizing atoms with
  | nil => rfl
  | cons p rest ih =>
    rw [List.foldl_cons, ih _ (fun pr hpr => h pr (List.mem_cons_of_mem _ hpr))]
    exact setTopologyAtoms_getD_ne atoms p.1 k p.2
      (fun hk => (h p (List.mem_cons_self _ _)) hk.symm)

theorem foldl_setTopology_length (ps : List (ℕ × String)) (atoms : List (Atom α)) :
    (ps.foldl (fun acc jt => setTopologyAtoms acc jt.1 jt.2) atoms).length
      = atoms.length := by
  induction ps generalizing atoms with
  | nil => rfl
  | cons p rest ih => rw [List.foldl_cons, ih, setTopologyAtoms_length]

theorem foldl_setTopology_write (ps : List (ℕ × String)) (atoms : List (Atom α))
    (hnd : (ps.map Prod.fst).Nodup) :
    ∀ k top, (k, top) ∈ ps → k < atoms.length →
      (((ps.foldl (fun acc jt => setTopologyAtoms acc jt.1 jt.2) atoms)).getD
        k dummyAtom).topology = some top := by
  induction ps generalizing atoms with
  | nil => intro k top h; simp at h
  | cons p rest ih =>
    intro k top hmem hk
    have hndr : (rest.map Prod.fst).Nodup := (List.nodup_cons.mp (by simpa using hnd)).2
    have hnotin : p.1 ∉ rest.map Prod.fst := (List.nodup_cons.mp (by simpa using hnd)).1
    rcases List.mem_cons.mp hmem with rfl | hrest
    · rw [List.foldl_cons,
        foldl_setTopology_other rest _ k (fun pr hpr hkeq => hnotin (by
          simpa [hkeq] using List.mem_map_of_mem Prod.fst hpr))]
      exact setTopologyAtoms_getD_eq atoms k top hk
    · rw [List.foldl_cons]
      refine ih _ hndr k top hrest ?_
      rw [setTopologyAtoms_length]
      exact hk

theorem length_filterMap_if {β : Type} (l : List ℕ) (v : β) (p : ℕ → Prop)
    [DecidablePred p] :
    (l.filterMap (fun c => if p c then some v else none)).length
      = (l.filter (fun c => decide (p c))).length := by
  induction l with
  | nil => rfl
  | cons x xs ih =>
    by_cases hx : p x
    · simp only [List.filterMap_cons, List.filter_cons, if_pos hx, decide_eq_true hx]
      simp [ih]
    · simp only [List.filterMap_cons, List.filter_cons, if_neg hx]
      have : decide (p x) = false := decide_eq_false hx
      simp [this, ih]

theorem mem_filterMap_if {β : Type} {l : List ℕ} {v x : β} {p : ℕ → Prop}
    [DecidablePred p] (h : x ∈ l.filterMap (fun c => if p c then some v else none)) :
    x = v := by
  rcases List.mem_filterMap.mp h with ⟨c, _, hfc⟩
  split_ifs at hfc
  exact (Option.some_inj.mp hfc).symm

theorem count_flatMap_rows (m r : ℕ) (g : ℕ → List ℕ)
    (hg : ∀ r2, ∀ x ∈ g r2, x = r2) (hr : r < m) :
    ((List.range m).flatMap g).count r = (g r).length := by
  induction m with
  | zero => omega
  | succ m ih =>
    rw [List.range_succ, List.flatMap_append, List.count_append]
    by_cases hrm : r = m
    · subst hrm
      have h0 : ((List.range r).flatMap g).count r = 0 := by
        rw [List.count_eq_zero]
        intro hmem
        rcases List.mem_flatMap.mp hmem with ⟨r2, hr2, hx⟩
        have := hg r2 r hx
        have := List.mem_range.mp hr2
        omega
      rw [h0]
      simp only [List.flatMap_cons, List.flatMap_nil, List.append_nil]
      rw [List.count_eq_length.mpr (fun b hb => (hg r b hb).symm)]
      omega
    · have hr2 : r < m := by omega
      rw [ih hr2]
      have h0 : (([m] : List ℕ).flatMap g).count r = 0 := by
        rw [List.count_eq_zero]
        intro hmem
        rcases List.mem_flatMap.mp hmem with ⟨r2, hr2b, hx⟩
        have hxr2 := hg r2 r hx
        simp at hr2b
        omega
      rw [h0]
      omega

theorem foldr_max_le (xs : List ℕ) (m : ℕ) (h : ∀ x ∈ xs, x + 1 ≤ m) :
    xs.foldr (fun a b => max (a + 1) b) 0 ≤ m := by
  induction xs with
  | nil => simp
  | cons x xs2 ih =>
    simp only [List.foldr_cons]
    have h1 := h x (List.mem_cons_self _ _)
    have h2 := ih (fun y hy => h y (List.mem_cons_of_mem _ hy))
    omega

theorem bincount_length (m : ℕ) (xs : List ℕ) (h : ∀ x ∈ xs, x < m) :
    (bincount m xs).length = m := by
  simp only [bincount, List.length_map, List.length_range]
  have := foldr_max_le xs m (fun x hx => h x hx)
  omega

theorem bincount_getD (m : ℕ) (xs : List ℕ) (r : ℕ) (hr : r < m)
    (h : ∀ x ∈ xs, x < m) :
    (bincount m xs).getD r 0 = xs.count r := by
  have hlen : (bincount m xs).length = m := bincount_length m xs h
  have hrlen : r < (List.range (max m (xs.foldr (fun a b => max (a + 1) b) 0))).length := by
    simp only [List.length_range]
    omega
  simp only [bincount]
  rw [getD_map_lt _ _ _ 0 (by simpa using hrlen)]
  congr 1
  rw [List.getD_eq_getElem _ _ (by simpa using hrlen)]
  simp

theorem length_filter_insert (l : List ℕ) (r : ℕ) (p q : ℕ → Bool) (hnd : l.Nodup)
    (hr : r ∈ l) (hpr : p r = true) (hqr : q r = false)
    (hpq : ∀ c, c ≠ r → p c = q c) :
    (l.filter p).length = 1 + (l.filter q).length := by
  induction l with
  | nil => simp at hr
  | cons x xs ih =>
    have hx_not : x ∉ xs := (List.nodup_cons.mp hnd).1
    have hndxs : xs.Nodup := (List.nodup_cons.mp hnd).2
    by_cases hxr : x = r
    · subst hxr
      have hrnot : x ∉ xs := hx_not
      rw [List.filter_cons, List.filter_cons, hpr, hqr]
      simp only [if_true, Bool.false_eq_true, if_false, List.length_cons]
      have hcong : xs.filter p = xs.filter q := by
        refine List.filter_congr ?_
        intro c hc
        exact hpq c (fun hcr => hrnot (hcr ▸ hc))
      rw [hcong]
      omega
    · have hrxs : r ∈ xs := by
        rcases List.mem_cons.mp hr with h1 | h1
        · exact absurd h1.symm hxr
        · exact h1
      have hpqx : p x = q x := hpq x hxr
      rw [List.filter_cons, List.filter_cons, hpqx]
      by_cases hqx : q x = true
      · rw [hqx]
        simp only [if_true, List.length_cons]
        rw [ih hndxs hrxs]
        omega
      · have hqx2 : q x = false := by
          cases hq : q x
          · rfl
          · exact absurd hq hqx
        rw [hqx2]
        simp only [Bool.false_eq_true, if_false]
        exact ih hndxs hrxs

/-! ## Claim C5 -/

/-- Claim C5 as frozen is false on the code: the neighbour count uses
`dist <= max_dist` (line 307), not "strictly within".  Concrete input: two
core atoms exactly `max_dist` apart (squared distance `9 = maxDistSq`).
Strictly-within counts are zero for both atoms, so the claim predicts
`"0_neighbours"`, but the code counts each as the other's neighbour and
writes `"1_neighbours"`. -/
theorem C5_counterexample :
    ((assign_topology
        (⟨[⟨(0, 0, 0), 1, none, false⟩, ⟨(3, 0, 0), 1, none, false⟩]⟩ : Molecule ℤ)
        [0, 1] 9 []).atoms.map (fun at2 => at2.topology))
      = [some "1_neighbours", some "1_neighbours"] ∧
    ¬distSq ((0, 0, 0) : V3 ℤ) ((3, 0, 0) : V3 ℤ) < 9 ∧
    ("1_neighbours" : String) ≠ "0_neighbours" :=
  ⟨by rfl, by decide, by decide⟩

/-- Claim C5, amended: `assign_topology` computes, per core atom, the number
of *other* core atoms at distance **at most** (not strictly below) `max_dist`
(self excluded via the diagonal overwrite and the `- 1` compensation), and
writes under the atom's `topology` property the mapped label when the count
is a key of the topology mapping and the generated `"<count>_neighbours"`
label otherwise; with no custom mapping an isolated core atom receives
`"0_neighbours"`. -/
theorem C5_amended (mol : Molecule α) (core : List ℕ) (t : α)
    (topoMap : List (ℤ × String))
    (hnd : core.Nodup) (hin : ∀ j2 ∈ core, j2 < mol.atoms.length)
    (r : ℕ) (hr : r < core.length) :
    ((assign_topology mol core t topoMap).atoms.getD (core.getD r 0) dummyAtom).topology
      = some (topologyLabel topoMap
          (((List.range core.length).filter (fun c => decide (c ≠ r ∧
            distSq (xyzOf (mol.atoms.map (fun at2 => at2.pos)) (core.getD r 0))
              (xyzOf (mol.atoms.map (fun at2 => at2.pos)) (core.getD c 0)) ≤ t))).length
            : ℤ)) := by
  simp only [assign_topology]
  set xyz := xyzOf (mol.atoms.map (fun at2 => at2.pos)) with hxyzdef
  set d := maskedCoreDist xyz core t with hddef
  set vc := validCore d core.length t with hvcdef
  set nc := (bincount core.length vc).map (fun (k : ℕ) => (k : ℤ) - 1) with hncdef
  set labels := _get_topology topoMap nc with hlabdef
  have hvclt : ∀ x ∈ vc, x < core.length := by
    intro x hx
    rw [hvcdef, validCore] at hx
    rcases List.mem_flatMap.mp hx with ⟨r2, hr2, hx2⟩
    have hxr2 := mem_filterMap_if hx2
    subst hxr2
    exact List.mem_range.mp hr2
  have hbinlen : (bincount core.length vc).length = core.length :=
    bincount_length _ _ hvclt
  have hnclen : nc.length = core.length := by
    rw [hncdef, List.length_map, hbinlen]
  have hlablen : labels.length = core.length := by
    rw [hlabdef]
    simp only [_get_topology, List.length_map]
    exact hnclen
  have hkeys : (core.zip labels).map Prod.fst = core :=
    List.map_fst_zip _ _ (by rw [hlablen])
  have hrzip : r < (core.zip labels).length := by
    rw [List.length_zip, hlablen]
    omega
  have hpair : (core.getD r 0, labels.getD r "") ∈ core.zip labels := by
    refine List.mem_iff_getElem.mpr ⟨r, hrzip, ?_⟩
    rw [List.getElem_zip, List.getD_eq_getElem _ _ hr,
      List.getD_eq_getElem _ _ (show r < labels.length by omega)]
  have hklt : core.getD r 0 < mol.atoms.length := by
    refine hin _ ?_
    rw [List.getD_eq_getElem _ _ hr]
    exact List.getElem_mem _
  have hw := foldl_setTopology_write (core.zip labels) mol.atoms
    (by rw [hkeys]; exact hnd) _ _ hpair hklt
  rw [hw]
  congr 1
  rw [hlabdef]
  simp only [_get_topology]
  rw [getD_map_lt _ _ _ 0 (by rw [hnclen]; exact hr)]
  congr 1
  rw [hncdef, getD_map_lt _ _ _ 0 (by rw [hbinlen]; exact hr),
    bincount_getD _ _ _ hr hvclt]
  have hcnt : vc.count r = 1 +
      ((List.range core.length).filter (fun c => decide (c ≠ r ∧
        distSq (xyz (core.getD r 0)) (xyz (core.getD c 0)) ≤ t))).length := by
    rw [hvcdef, validCore,
      count_flatMap_rows core.length r _ (fun r2 x hx => mem_filterMap_if hx) hr,
      length_filterMap_if]
    refine length_filter_insert (List.range core.length) r _ _ (List.nodup_range _)
      (List.mem_range.mpr hr) ?_ ?_ ?_
    · simp [hddef, maskedCoreDist]
    · simp
    · intro c hcr
      have hrc : ¬r = c := fun h => hcr h.symm
      simp [hddef, maskedCoreDist, hrc, hcr]
  rw [hcnt]
  push_cast
  ring

/-- Witness for `C5_amended` at the counterexample's concrete input. -/
theorem C5_amended_witness :
    (([0, 1] : List ℕ).Nodup ∧
      (∀ j2 ∈ ([0, 1] : List ℕ),
        j2 < (⟨[⟨(0, 0, 0), 1, none, false⟩,
          ⟨(3, 0, 0), 1, none, false⟩]⟩ : Molecule ℤ).atoms.length) ∧
      0 < ([0, 1] : List ℕ).length) ∧
    ((assign_topology
        (⟨[⟨(0, 0, 0), 1, none, false⟩, ⟨(3, 0, 0), 1, none, false⟩]⟩ : Molecule ℤ)
        [0, 1] 9 []).atoms.getD (([0, 1] : List ℕ).getD 0 0) dummyAtom).topology
      = some (topologyLabel []
          (((List.range ([0, 1] : List ℕ).length).filter (fun c => decide (c ≠ 0 ∧
            distSq (xyzOf ((⟨[⟨(0, 0, 0), 1, none, false⟩,
                  ⟨(3, 0, 0), 1, none, false⟩]⟩ : Molecule ℤ).atoms.map
                (fun at2 => at2.pos)) (([0, 1] : List ℕ).getD 0 0))
              (xyzOf ((⟨[⟨(0, 0, 0), 1, none, false⟩,
                  ⟨(3, 0, 0), 1, none, false⟩]⟩ : Molecule ℤ).atoms.map
                (fun at2 => at2.pos)) (([0, 1] : List ℕ).getD c 0)) ≤ 9))).length
            : ℤ)) :=
  ⟨⟨by decide, by decide, by decide⟩,
    C5_amended
      (⟨[⟨(0, 0, 0), 1, none, false⟩, ⟨(3, 0, 0), 1, none, false⟩]⟩ : Molecule ℤ)
      [0, 1] 9 [] (by decide) (by decide) 0 (by decide)⟩

/-! ## Claim C4 -/

/-- Claim C4 concerns `remove_bulk`, but the method cannot perform its
documented in-place filtering at all: line 254 calls the nonexistent
`np.filldiagonal`, so every invocation — on every engine state — raises
`AttributeError` immediately after building the distance matrix, leaving
`core_idx` untouched and never reaching the vector-length test (and even
with the typo fixed, line 276's tuple unpack raises `ValueError`, a
zero-neighbour atom would be NaN-discarded rather than retained, and the
setter re-entry would shift all surviving indices by another -1). -/
theorem C4_remove_bulk_always_raises (xyz : ℕ → V3 α) (core : List ℕ)
    (maxDistSq maxVecLenSq : α) :
    remove_bulk xyz core maxDistSq maxVecLenSq
      = .error (.attributeError "module numpy has no attribute filldiagonal") := rfl

/-! ## Claim C6 -/

/-- Claim C6 as frozen is false on the code, three ways at once:
* input `[3, 3]` (1-based, duplicated) coerces to `[2, 2]` — sorted but
  *not* duplicate-free;
* input `[99, 1]` succeeds as `[0, 98]` — no `InvalidIndexError` (nor any
  other error) for values beyond any atom count: the coercion has no access
  to the atom count at all;
* the single integer `5`, which the claim requires to be accepted, raises
  `AttributeError` (line 689 touches the nonexistent `ret.ndmin`). -/
theorem C6_counterexample :
    core_idx_set (.ofList [3, 3]) = .ok [2, 2] ∧
      ¬([2, 2] : List ℤ).Nodup ∧
      core_idx_set (.ofList [99, 1]) = .ok [0, 98] ∧
      core_idx_set (.scalar 5)
        = .error (.attributeError "ndarray object has no attribute ndmin") :=
  ⟨by rfl, by decide, by rfl, by rfl⟩

/-- Claim C6, amended: for every list or iterator input the coercion
succeeds with the input values each decreased by one and sorted ascending —
duplicates preserved (the output is a permutation of the shifted input) and
no range or integrality validation performed — while every single-integer
input raises `AttributeError` in `as_array`'s `ndmin` adjustment. -/
theorem C6_amended (xs : List ℤ) (n : ℤ) :
    (∃ l, core_idx_set (.ofList xs) = .ok l ∧ l.Sorted (· ≤ ·) ∧
      List.Perm l (xs.map (fun x => x - 1))) ∧
    (∃ l, core_idx_set (.iterator xs) = .ok l ∧ l.Sorted (· ≤ ·) ∧
      List.Perm l (xs.map (fun x => x - 1))) ∧
    core_idx_set (.scalar n)
      = .error (.attributeError "ndarray object has no attribute ndmin") := by
  refine ⟨⟨(xs.map (fun x => x - 1)).insertionSort (· ≤ ·), rfl, ?_, ?_⟩,
    ⟨(xs.map (fun x => x - 1)).insertionSort (· ≤ ·), rfl, ?_, ?_⟩, rfl⟩
  · exact List.sorted_insertionSort _ _
  · exact List.perm_insertionSort _ _
  · exact List.sorted_insertionSort _ _
  · exact List.perm_insertionSort _ _

/-! ## Claim C7 -/

/-- Claim C7 is right about the intent and the code is wrong
(`_core_neighbours`' docstring promises "each element from core in a
tuple", and `get_combinations`' docstring promises "a list with the
(1-based) indices"; `__call__` subscripts the element at line 510).  The
code instead yields a *bare integer*, and that integer is `1 +
self.core_idx[row]` — read from the engine state, not from the record's own
core column.  Concrete input: engine `core_idx = [5]`, one PairRecord
`[7, 0]`, partition `{1: [2, 3]}`.  The emitted combination carries core
component `6` (= 1 + 5), a plain number, whereas the claim requires the
singleton holding the record's 1-based core index `8` (= 7 + 1). -/
theorem C7_code_bug :
    get_combinations [(1, [2, 3])] [5] [[7, 0]] = .ok [(6, [[2, 3]])] ∧
      (6 : ℕ) ≠ 7 + 1 :=
  ⟨by rfl, by decide⟩

/-! ## Claim C8 -/

/-- Claim C8 is right about the intent and the code is wrong: line 618
unpacks the single array returned by `np.intersect1d` (called without
`return_indices=True`) into three names, so the mismatch check cannot run
as documented.  Concrete input: `core = [0, 1]` with a single substructure
match `(0, 1, 2)` covering every core index.  The claim requires no error;
the code raises `ValueError` ("not enough values to unpack") because the
intersection `[0, 1]` has two elements, not three. -/
theorem C8_code_bug :
    _core_neighbours_smiles [0, 1] [[0, 1, 2]]
        = .error (.valueError "not enough values to unpack") ∧
      (∀ x ∈ ([0, 1] : List ℕ), x ∈ ([[0, 1, 2]] : List (List ℕ)).flatten) :=
  ⟨by rfl, by decide⟩

/-! ## Claim C9 -/

/-- Claim C9 is right about the intent and the code is wrong: no record
shape lets `__call__` yield a structure when ligand groups are present.
With ligand groups as lists (the `CombinationRecord` shape), line 512
passes a *list* to `Molecule.__getitem__`, which raises; with flat integer
ligand indices instead, line 519's `mol_new[i[0]]` subscripts an integer
and raises; and the records actually produced by `get_combinations` carry a
bare integer core (line 510's `core_idx[0]` then subscripts an integer).
Concrete input: a three-atom molecule and the single record
`([1], [[2, 3]])` — the claim requires one copy with atoms 1, 2, 3 removed;
the code raises `TypeError` and yields nothing. -/
theorem C9_code_bug :
    dissociater_call
        (⟨[⟨(0, 0, 0), 1, none, false⟩, ⟨(1, 0, 0), 2, none, false⟩,
          ⟨(2, 0, 0), 2, none, false⟩]⟩ : Molecule ℤ)
        [([1], [[2, 3]])]
      = .error (.typeError "Molecule indices must be integers, not list") := by rfl

/-! ## Lemmas about `partitionAdd` and `partition_mol` -/

theorem partitionAdd_keys (acc : List (ℤ × List ℕ)) (k : ℤ) (i : ℕ) :
    (partitionAdd acc k i).map Prod.fst
      = if k ∈ acc.map Prod.fst then acc.map Prod.fst else acc.map Prod.fst ++ [k] := by
  induction acc with
  | nil => simp [partitionAdd]
  | cons p rest ih =>
    rcases p with ⟨k2, l⟩
    by_cases hk : k2 = k
    · subst hk
      simp [partitionAdd]
    · have hne : ¬k = k2 := fun h => hk h.symm
      simp only [partitionAdd, if_neg hk, List.map_cons, ih]
      by_cases hmem : k ∈ rest.map Prod.fst
      · simp [hmem, hne]
      · simp [hmem, hne]

theorem partitionAdd_mem {acc : List (ℤ × List ℕ)} {k : ℤ} {i : ℕ}
    {kl : ℤ × List ℕ} (h : kl ∈ partitionAdd acc k i) :
    kl ∈ acc ∨ (kl.1 = k ∧ kl.2 = [i]) ∨
      (kl.1 = k ∧ ∃ l0, (k, l0) ∈ acc ∧ kl.2 = l0 ++ [i]) := by
  induction acc with
  | nil =>
    simp [partitionAdd] at h
    right; left
    simp [h]
  | cons p rest ih =>
    rcases p with ⟨k2, l⟩
    by_cases hk : k2 = k
    · subst hk
      simp only [partitionAdd, if_pos rfl] at h
      rcases List.mem_cons.mp h with rfl | hmem
      · right; right
        exact ⟨rfl, l, List.mem_cons_self _ _, rfl⟩
      · exact Or.inl (List.mem_cons_of_mem _ hmem)
    · simp only [partitionAdd, if_neg hk] at h
      rcases List.mem_cons.mp h with rfl | hmem
      · exact Or.inl (List.mem_cons_self _ _)
      · rcases ih hmem with h1 | h2 | ⟨hkk, l0, hl0, hl⟩
        · exact Or.inl (List.mem_cons_of_mem _ h1)
        · exact Or.inr (Or.inl h2)
        · exact Or.inr (Or.inr ⟨hkk, l0, List.mem_cons_of_mem _ hl0, hl⟩)

theorem partitionAdd_lookup_self (acc : List (ℤ × List ℕ)) (k : ℤ) (i : ℕ) :
    (partitionAdd acc k i).lookup k = some ((acc.lookup k).getD [] ++ [i]) := by
  induction acc with
  | nil => simp [partitionAdd, List.lookup]
  | cons p rest ih =>
    rcases p with ⟨k2, l⟩
    by_cases hk : k2 = k
    · subst hk
      simp [partitionAdd, List.lookup_cons]
    · have hne : k ≠ k2 := fun h => hk h.symm
      simp only [partitionAdd, if_neg hk, List.lookup_cons, beq_false_of_ne hne]
      exact ih

theorem partitionAdd_lookup_ne (acc : List (ℤ × List ℕ)) (k k2 : ℤ) (i : ℕ)
    (h : k2 ≠ k) :
    (partitionAdd acc k i).lookup k2 = acc.lookup k2 := by
  induction acc with
  | nil => simp [partitionAdd, List.lookup, beq_false_of_ne h]
  | cons p rest ih =>
    rcases p with ⟨k3, l⟩
    by_cases hk : k3 = k
    · subst hk
      have hne : k2 ≠ k3 := h
      simp [partitionAdd, List.lookup_cons, beq_false_of_ne hne]
    · simp only [partitionAdd, if_neg hk, List.lookup_cons]
      by_cases h23 : k2 = k3
      · subst h23
        simp
      · simp only [beq_false_of_ne h23]
        exact ih

theorem partitionAdd_inv (f : ℕ → ℤ) (b : ℕ) (acc : List (ℤ × List ℕ))
    (hb : 1 ≤ b) (h : PartitionInv f b acc) :
    PartitionInv f (b + 1) (partitionAdd acc (f b) b) := by
  obtain ⟨hkeys, hentries, hchains, hcomplete⟩ := h
  refine ⟨?_, ?_, ?_, ?_⟩
  · rw [partitionAdd_keys]
    by_cases hmem : f b ∈ acc.map Prod.fst
    · simp [hmem, hkeys]
    · simp [hmem, List.nodup_append, hkeys]
  · intro kl hkl i hi
    rcases partitionAdd_mem hkl with h1 | ⟨hk, hl⟩ | ⟨hk, l0, hl0, hl⟩
    · obtain ⟨ha, hb2, hc⟩ := hentries kl h1 i hi
      exact ⟨ha, hb2, by omega⟩
    · rw [hl] at hi
      simp at hi
      subst hi
      exact ⟨hk.symm ▸ rfl, hb, by omega⟩
    · rw [hl] at hi
      rcases List.mem_append.mp hi with hil | hib
      · obtain ⟨ha, hb2, hc⟩ := hentries (f b, l0) hl0 i hil
        exact ⟨by rw [hk]; exact ha, hb2, by omega⟩
      · simp at hib
        subst hib
        exact ⟨hk.symm ▸ rfl, hb, by omega⟩
  · intro kl hkl
    rcases partitionAdd_mem hkl with h1 | ⟨hk, hl⟩ | ⟨hk, l0, hl0, hl⟩
    · exact hchains kl h1
    · rw [hl]
      exact List.chain'_singleton _
    · rw [hl, List.chain'_append]
      refine ⟨hchains (f b, l0) hl0, List.chain'_singleton _, ?_⟩
      intro x hx y hy
      simp at hy
      subst hy
      obtain ⟨_, _, hlt⟩ := hentries (f b, l0) hl0 x (List.mem_of_mem_getLast? hx)
      exact hlt
  · intro i h1i hilt
    by_cases hib : i = b
    · subst hib
      refine ⟨(acc.lookup (f i)).getD [] ++ [i], partitionAdd_lookup_self acc (f i) i, ?_⟩
      simp
    · have hilt2 : i < b := by omega
      obtain ⟨l, hlook, hmem⟩ := hcomplete i h1i hilt2
      by_cases hf : f i = f b
      · rw [hf] at hlook
        refine ⟨(acc.lookup (f b)).getD [] ++ [b], by
          rw [hf]; exact partitionAdd_lookup_self acc (f b) b, ?_⟩
        rw [hlook]
        simp only [Option.getD_some]
        exact List.mem_append.mpr (Or.inl hmem)
      · rw [partitionAdd_lookup_ne acc (f b) (f i) b hf]
        exact ⟨l, hlook, hmem⟩

theorem partition_fold_inv (f : ℕ → ℤ) :
    ∀ (len b : ℕ) (acc : List (ℤ × List ℕ)), 1 ≤ b → PartitionInv f b acc →
      PartitionInv f (b + len)
        ((List.range' b len).foldl (fun acc2 i => partitionAdd acc2 (f i) i) acc) := by
  intro len
  induction len with
  | zero => intro b acc hb h; simpa using h
  | succ len ih =>
    intro b acc hb h
    rw [List.range'_succ, List.foldl_cons]
    have hstep := partitionAdd_inv f b acc hb h
    have hres := ih (b + 1) _ (by omega) hstep
    have harith : b + (len + 1) = (b + 1) + len := by omega
    rw [harith]
    exact hres

theorem enumFrom_foldl_eq (key : Atom α → ℤ) (full : List (Atom α)) :
    ∀ (l : List (Atom α)) (b : ℕ) (acc : List (ℤ × List ℕ)), 1 ≤ b →
      (∀ idx, idx < l.length → l.getD idx dummyAtom = full.getD (b - 1 + idx) dummyAtom) →
      (List.enumFrom b l).foldl (fun acc2 ia => partitionAdd acc2 (key ia.2) ia.1) acc
        = (List.range' b l.length).foldl
            (fun acc2 i => partitionAdd acc2 (key (full.getD (i - 1) dummyAtom)) i) acc := by
  intro l
  induction l with
  | nil => intro b acc _ _; rfl
  | cons a tl ih =>
    intro b acc hb hidx
    have ha : a = full.getD (b - 1) dummyAtom := by
      have := hidx 0 (by simp)
      simpa using this
    simp only [List.enumFrom, List.length_cons, List.range'_succ, List.foldl_cons]
    rw [← ha]
    refine ih (b + 1) _ (by omega) ?_
    intro idx hidxlt
    have := hidx (idx + 1) (by simpa using Nat.succ_lt_succ hidxlt)
    rw [List.getD_cons_succ] at this
    rw [this]
    congr 1
    omega

/-! ## Claim C10 -/

/-- Claim C10, confirmed: for every molecule and every key function,
`partition_mol` produces groups with pairwise distinct keys, each group's
index list strictly increasing, every recorded index lying in `[1, n]` and
keyed by its own atom's key, and every 1-based index of the structure
recorded under its atom's key — so each atom index appears in exactly one
group (the one looked up by its key), and the group lists partition
`{1, …, n}`. -/
theorem C10_partition (mol : Molecule α) (key : Atom α → ℤ) :
    ((partition_mol mol key).map Prod.fst).Nodup ∧
    (∀ kl ∈ partition_mol mol key, List.Chain' (· < ·) kl.2) ∧
    (∀ kl ∈ partition_mol mol key, ∀ i ∈ kl.2,
      1 ≤ i ∧ i ≤ mol.atoms.length ∧ key (mol.atoms.getD (i - 1) dummyAtom) = kl.1) ∧
    (∀ i, 1 ≤ i → i ≤ mol.atoms.length →
      ∃ l, (partition_mol mol key).lookup (key (mol.atoms.getD (i - 1) dummyAtom))
          = some l ∧ i ∈ l) := by
  have hbase : PartitionInv (fun i => key (mol.atoms.getD (i - 1) dummyAtom)) 1 [] := by
    refine ⟨by simp, by simp, by simp, ?_⟩
    intro i h1 hlt
    omega
  have heq : partition_mol mol key
      = (List.range' 1 mol.atoms.length).foldl
          (fun acc2 i => partitionAdd acc2 (key (mol.atoms.getD (i - 1) dummyAtom)) i)
          [] := by
    rw [partition_mol]
    exact enumFrom_foldl_eq key mol.atoms mol.atoms 1 [] (le_refl 1)
      (fun idx hidx => by simp)
  have hfold := partition_fold_inv (fun i => key (mol.atoms.getD (i - 1) dummyAtom))
    mol.atoms.length 1 [] (le_refl 1) hbase
  rw [← heq] at hfold
  obtain ⟨h1, h2, h3, h4⟩ := hfold
  refine ⟨h1, fun kl hkl => h3 kl hkl, ?_, ?_⟩
  · intro kl hkl i hi
    obtain ⟨hf, h1i, hib⟩ := h2 kl hkl i hi
    exact ⟨h1i, by omega, hf⟩
  · intro i h1i hin
    exact h4 i h1i (by omega)

/-- Witness for `C10_partition` on a concrete three-atom molecule with two
residues (the completeness conjunct has hypotheses `1 ≤ i ≤ n`). -/
theorem C10_partition_witness :
    (((partition_mol
        (⟨[⟨(0, 0, 0), 7, none, false⟩, ⟨(1, 0, 0), 3, none, false⟩,
          ⟨(2, 0, 0), 7, none, false⟩]⟩ : Molecule ℤ)
        (fun at2 => at2.resNum)).map Prod.fst).Nodup ∧
      (∀ kl ∈ partition_mol
          (⟨[⟨(0, 0, 0), 7, none, false⟩, ⟨(1, 0, 0), 3, none, false⟩,
            ⟨(2, 0, 0), 7, none, false⟩]⟩ : Molecule ℤ)
          (fun at2 => at2.resNum), List.Chain' (· < ·) kl.2) ∧
      (∀ kl ∈ partition_mol
          (⟨[⟨(0, 0, 0), 7, none, false⟩, ⟨(1, 0, 0), 3, none, false⟩,
            ⟨(2, 0, 0), 7, none, false⟩]⟩ : Molecule ℤ)
          (fun at2 => at2.resNum), ∀ i ∈ kl.2,
        1 ≤ i ∧ i ≤ (⟨[⟨(0, 0, 0), 7, none, false⟩, ⟨(1, 0, 0), 3, none, false⟩,
          ⟨(2, 0, 0), 7, none, false⟩]⟩ : Molecule ℤ).atoms.length ∧
          (fun (at2 : Atom ℤ) => at2.resNum)
            ((⟨[⟨(0, 0, 0), 7, none, false⟩, ⟨(1, 0, 0), 3, none, false⟩,
              ⟨(2, 0, 0), 7, none, false⟩]⟩ : Molecule ℤ).atoms.getD (i - 1) dummyAtom)
            = kl.1) ∧
      (∀ i, 1 ≤ i → i ≤ (⟨[⟨(0, 0, 0), 7, none, false⟩, ⟨(1, 0, 0), 3, none, false⟩,
          ⟨(2, 0, 0), 7, none, false⟩]⟩ : Molecule ℤ).atoms.length →
        ∃ l, (partition_mol
            (⟨[⟨(0, 0, 0), 7, none, false⟩, ⟨(1, 0, 0), 3, none, false⟩,
              ⟨(2, 0, 0), 7, none, false⟩]⟩ : Molecule ℤ)
            (fun at2 => at2.resNum)).lookup
              ((fun (at2 : Atom ℤ) => at2.resNum)
                ((⟨[⟨(0, 0, 0), 7, none, false⟩, ⟨(1, 0, 0), 3, none, false⟩,
                  ⟨(2, 0, 0), 7, none, false⟩]⟩ : Molecule ℤ).atoms.getD
                  (i - 1) dummyAtom))
            = some l ∧ i ∈ l)) ∧
    partition_mol
        (⟨[⟨(0, 0, 0), 7, none, false⟩, ⟨(1, 0, 0), 3, none, false⟩,
          ⟨(2, 0, 0), 7, none, false⟩]⟩ : Molecule ℤ)
        (fun at2 => at2.resNum) = [(7, [1, 3]), (3, [2])] :=
  ⟨C10_partition
      (⟨[⟨(0, 0, 0), 7, none, false⟩, ⟨(1, 0, 0), 3, none, false⟩,
        ⟨(2, 0, 0), 7, none, false⟩]⟩ : Molecule ℤ)
      (fun at2 => at2.resNum),
    by rfl⟩
